import Mathlib

/-!
Verification development for the `ms-learn-d365-scraper` crawler (`src/server.js`).

The JavaScript source is shallowly embedded in Lean:

* `normalizeUrl`, `extractTitle`, `extractLastUpdated`, `isSupportedCountryLink`,
  `extractSidebarUrls`, `scrapeAll` (as a fuelled state-transition system) and `toCsv`
  are translated function by function from `src/server.js`.
* The platform primitives the source calls (the WHATWG `URL` class, `Date` parsing,
  `toLocaleDateString("en-US")`, cheerio selector queries, `String.prototype` helpers)
  are modelled explicitly.  Each model's doc comment states the fragment it covers.
* Strings are handled through their underlying `List Char`, and machine-level structure
  (JS `Set` insertion order, `null` values flowing through `Set`s) is kept explicit.
-/

/-! ### Character and string utilities (models of JS string primitives) -/

/-- Code point of a character (ASCII reasoning is done on `Nat`). -/
def cn (c : Char) : Nat := c.toNat

/-- ASCII lowercase letter `a`–`z`. -/
def isLowerC (c : Char) : Bool := decide (97 ≤ cn c ∧ cn c ≤ 122)

/-- ASCII uppercase letter `A`–`Z`. -/
def isUpperC (c : Char) : Bool := decide (65 ≤ cn c ∧ cn c ≤ 90)

/-- ASCII digit `0`–`9`. -/
def isDigitC (c : Char) : Bool := decide (48 ≤ cn c ∧ cn c ≤ 57)

/-- ASCII letter, either case. -/
def isAlphaC (c : Char) : Bool := isLowerC c || isUpperC c

/-- Model of JS `\s` restricted to ASCII: space, tab, LF, VT, FF, CR. -/
def isJsSpace (c : Char) : Bool :=
  decide (cn c = 32 ∨ cn c = 9 ∨ cn c = 10 ∨ cn c = 11 ∨ cn c = 12 ∨ cn c = 13)

/-- JS `\w` word character: letter, digit or underscore. -/
def isWordC (c : Char) : Bool := isAlphaC c || isDigitC c || decide (cn c = 95)

/-- ASCII lower-casing of one character (model of `toLowerCase` on ASCII). -/
def lowerChar (c : Char) : Char :=
  if isUpperC c then Char.ofNat (cn c + 32) else c

/-- ASCII lower-casing of a string (model of JS `toLowerCase` on ASCII text). -/
def lowerStr (s : String) : String := String.mk (s.data.map lowerChar)

/-- Does `pat` occur at the head of `l`? -/
def prefAt : List Char → List Char → Bool
  | [], _ => true
  | _ :: _, [] => false
  | p :: ps, c :: cs => p == c && prefAt ps cs

/-- Model of JS `String.prototype.startsWith`. -/
def strStartsWith (s pre : String) : Bool := prefAt pre.data s.data

/-- Does `pat` occur anywhere in `l`? -/
def containsAt (pat : List Char) : List Char → Bool
  | [] => pat.isEmpty
  | c :: cs => prefAt pat (c :: cs) || containsAt pat cs

/-- Model of JS `String.prototype.includes`. -/
def strIncludes (s pat : String) : Bool := containsAt pat.data s.data

/-- Model of JS `String.prototype.trim` (ASCII whitespace fragment). -/
def trimStr (s : String) : String :=
  String.mk (((s.data.dropWhile isJsSpace).reverse.dropWhile isJsSpace).reverse)

/-- Concatenation of a list of strings (model of cheerio `.text()` over several nodes). -/
def joinStr (l : List String) : String := String.mk (l.map String.data).flatten

/-- `String.intercalate` on the character level (model of JS `Array.prototype.join`). -/
def joinWith (sep : String) : List String → String
  | [] => ""
  | [s] => s
  | s :: rest => s ++ sep ++ joinWith sep rest

/-- Split on `\n`, then strip one trailing `\r` from each piece: model of
JS `split(/\r?\n/)`. -/
def splitNl : List Char → List (List Char)
  | [] => [[]]
  | c :: cs =>
    if c = '\n' then [] :: splitNl cs
    else match splitNl cs with
      | s :: ss => (c :: s) :: ss
      | [] => [[c]]

/-- Strip one trailing `\r` (helper for `split(/\r?\n/)`). -/
def dropCr (l : List Char) : List Char :=
  match l.reverse with
  | '\r' :: rest => rest.reverse
  | _ => l

/-- Model of `content.split(/\r?\n/)`. -/
def splitLinesJs (content : String) : List String :=
  ((splitNl content.data).map dropCr).map String.mk

/-! ### URL model

Model of the WHATWG `URL` class (`new URL`, the `hash` and `pathname` accessors,
`toString`) restricted to the fragment exercised by `server.js`:
absolute hierarchical URLs `scheme://host/path?query#fragment` with

* a lowercase ASCII-letter scheme (the real parser lowercases schemes; inputs with
  uppercase scheme letters are outside the modelled fragment and are rejected),
* a nonempty host of lowercase letters, digits, `.` and `-` (no userinfo, no port,
  no IDN/percent-encoding; uppercase hosts are likewise outside the fragment),
* a path whose characters come from the URL code-point set (no percent-encoding);
  dot segments `.` and `..` are resolved exactly as in the URL standard,
* an optional query and fragment over their standard code-point sets.

Inside this fragment parsing, serialization and relative-reference resolution agree
with the WHATWG behaviour; everything outside it is rejected (`none`), which the
claims treat as `new URL` throwing. -/

/-- Path code points (no `/`, `?`, `#`, `%`; letters either case, digits, and
`- . _ ~ ! $ & ( ) * + , ; = : @`). -/
def isPathChar (c : Char) : Bool :=
  isAlphaC c || isDigitC c ||
  decide (cn c = 45 ∨ cn c = 46 ∨ cn c = 95 ∨ cn c = 126 ∨ cn c = 33 ∨ cn c = 36 ∨
          cn c = 38 ∨ cn c = 40 ∨ cn c = 41 ∨ cn c = 42 ∨ cn c = 43 ∨ cn c = 44 ∨
          cn c = 59 ∨ cn c = 61 ∨ cn c = 58 ∨ cn c = 64)

/-- Query code points: path code points plus `/` and `?`. -/
def isQueryChar (c : Char) : Bool := isPathChar c || decide (cn c = 47 ∨ cn c = 63)

/-- Fragment code points (same set as query in this fragment). -/
def isFragChar (c : Char) : Bool := isQueryChar c

/-- Host code points: lowercase letters, digits, `.`, `-`. -/
def isHostChar (c : Char) : Bool :=
  isLowerC c || isDigitC c || decide (cn c = 46 ∨ cn c = 45)

/-- Characters that do not end the host section (anything but `/`, `?`, `#`). -/
def notHostEnd (c : Char) : Bool := !(decide (cn c = 47 ∨ cn c = 63 ∨ cn c = 35))

/-- Characters that do not end the path section (anything but `?`, `#`). -/
def notPQEnd (c : Char) : Bool := !(decide (cn c = 63 ∨ cn c = 35))

/-- Characters that do not end the query section (anything but `#`). -/
def notQEnd (c : Char) : Bool := !(decide (cn c = 35))

/-- Path characters as they appear in a serialized path: path code points or `/`. -/
def isPathOrSlash (c : Char) : Bool := isPathChar c || decide (cn c = 47)

/-- Parsed URL record: scheme, host, path segments, optional query and fragment.
The path `/a/b/` is `segs = [a, b, ""]`; the root path `/` is `segs = [""]`. -/
structure URLRec where
  scheme : List Char
  host : List Char
  segs : List (List Char)
  query : Option (List Char)
  fragment : Option (List Char)
  deriving Repr, DecidableEq

/-- Split a character list at every `/` (the pieces never contain `/`). -/
def splitOnSlash : List Char → List (List Char)
  | [] => [[]]
  | c :: cs =>
    if c = '/' then [] :: splitOnSlash cs
    else match splitOnSlash cs with
      | s :: ss => (c :: s) :: ss
      | [] => [[c]]

/-- Join path segments with `/`. -/
def joinSlash : List (List Char) → List Char
  | [] => []
  | [s] => s
  | s :: rest => s ++ '/' :: joinSlash rest

/-- The single-dot path segment. -/
def dotSeg : List Char := ['.']

/-- The double-dot path segment. -/
def dotDotSeg : List Char := ['.', '.']

/-- Dot-segment resolution of the URL standard's path state: `..` pops the previous
segment, `.` is dropped, and a trailing `.`/`..` leaves an empty final segment.
`acc` holds the already-emitted segments in reverse. -/
def removeDotsGo : List (List Char) → List (List Char) → List (List Char)
  | [], acc => acc.reverse
  | [s], acc =>
    if s = dotDotSeg then (acc.drop 1).reverse ++ [[]]
    else if s = dotSeg then acc.reverse ++ [[]]
    else (s :: acc).reverse
  | s :: rest, acc =>
    if s = dotDotSeg then removeDotsGo rest (acc.drop 1)
    else if s = dotSeg then removeDotsGo rest acc
    else removeDotsGo rest (s :: acc)

/-- Dot-segment resolution (see `removeDotsGo`). -/
def removeDots (segs : List (List Char)) : List (List Char) := removeDotsGo segs []

/-- Parse the query/fragment part of a URL (input starts at `?`, `#`, or is empty). -/
def parseQF (scheme host : List Char) (segs : List (List Char)) :
    List Char → Option URLRec
  | [] => some ⟨scheme, host, segs, none, none⟩
  | '?' :: q =>
    let qr := q.takeWhile notQEnd
    let r5 := q.dropWhile notQEnd
    if qr.all isQueryChar then
      match r5 with
      | [] => some ⟨scheme, host, segs, some qr, none⟩
      | '#' :: f => if f.all isFragChar then some ⟨scheme, host, segs, some qr, some f⟩ else none
      | _ => none
    else none
  | '#' :: f => if f.all isFragChar then some ⟨scheme, host, segs, none, some f⟩ else none
  | _ => none

/-- Parse the path/query/fragment part of a URL (input starts after the host). -/
def parsePQF (scheme host : List Char) : List Char → Option URLRec
  | '/' :: p =>
    let pr := p.takeWhile notPQEnd
    let r4 := p.dropWhile notPQEnd
    if pr.all isPathOrSlash then parseQF scheme host (removeDots (splitOnSlash pr)) r4
    else none
  | r3 => parseQF scheme host [[]] r3

/-- Model of `new URL(raw)` on the fragment described above; `none` models the
constructor throwing. -/
def parseU (cs : List Char) : Option URLRec :=
  let sch := cs.takeWhile isLowerC
  match cs.dropWhile isLowerC with
  | ':' :: '/' :: '/' :: r2 =>
    if sch = [] then none
    else
      let hostRaw := r2.takeWhile notHostEnd
      let r3 := r2.dropWhile notHostEnd
      if hostRaw = [] then none
      else if hostRaw.all isHostChar then parsePQF sch hostRaw r3
      else none
  | _ => none

/-- Model of `URL.prototype.toString` (the URL serializer) on this fragment. -/
def serializeU (r : URLRec) : List Char :=
  r.scheme ++ ':' :: '/' :: '/' :: r.host ++ '/' :: joinSlash r.segs ++
    (match r.query with
     | none => []
     | some q => '?' :: q) ++
    (match r.fragment with
     | none => []
     | some f => '#' :: f)

/-- Model of the `URL.prototype.pathname` getter. -/
def pathnameStr (r : URLRec) : String := String.mk ('/' :: joinSlash r.segs)

/-- Model of the `URL.prototype.pathname` setter's path parser (leading `/` consumed,
split on `/`, dot segments resolved). -/
def parsePathSegs (cs : List Char) : List (List Char) :=
  removeDots (splitOnSlash (match cs with
    | '/' :: rest => rest
    | cs => cs))

/-- Does the string end with `/`? (JS `endsWith("/")`). -/
def endsSlash (p : String) : Bool :=
  match p.data.reverse with
  | '/' :: _ => true
  | _ => false

/-- Does the string end with `//`? -/
def endsSlashSlash (p : String) : Bool :=
  match p.data.reverse with
  | '/' :: '/' :: _ => true
  | _ => false

/-- Translation of `normalizeUrl` from `src/server.js`:

    function normalizeUrl(raw) {
      try {
        const url = new URL(raw);
        url.hash = "";
        if (url.pathname !== "/" && url.pathname.endsWith("/")) {
          url.pathname = url.pathname.slice(0, -1);
        }
        return url.toString();
      } catch { return null; }
    }

`none` is the `null` of the catch branch. -/
def normalizeUrl (raw : String) : Option String :=
  match parseU raw.data with
  | none => none
  | some url0 =>
    let url1 : URLRec := { url0 with fragment := none }
    let p := pathnameStr url1
    let url2 : URLRec :=
      if p ≠ "/" ∧ endsSlash p = true then
        { url1 with segs := parsePathSegs p.data.dropLast }
      else url1
    some (String.mk (serializeU url2))

/-- Scheme-shaped letters for deciding whether an href is an absolute URL reference. -/
def isSchemeLetter (c : Char) : Bool := isAlphaC c

/-- Model of `new URL(href, base)` relative-reference resolution on this fragment:
absolute references are parsed directly; `//`-, `/`-, `?`-, `#`- and path-relative
references are resolved against `base` as in the URL standard. -/
def resolveU (href : List Char) (base : URLRec) : Option URLRec :=
  let sch := href.takeWhile isSchemeLetter
  if sch ≠ [] ∧ (href.dropWhile isSchemeLetter).head? = some ':' then
    parseU href
  else
    match href with
    | '/' :: '/' :: _ => parseU (base.scheme ++ ':' :: href)
    | '/' :: rest => parsePQF base.scheme base.host ('/' :: rest)
    | '?' :: q => parseQF base.scheme base.host base.segs ('?' :: q)
    | '#' :: f => if f.all isFragChar then some { base with fragment := some f } else none
    | [] => some { base with fragment := none }
    | _ =>
      let pr := href.takeWhile notPQEnd
      let r4 := href.dropWhile notPQEnd
      if pr.all isPathOrSlash then
        parseQF base.scheme base.host (removeDots (base.segs.dropLast ++ splitOnSlash pr)) r4
      else none

/-- Model of `new URL(href, baseUrl).toString()` where `baseUrl` is itself a string;
`none` models the constructor throwing (for an unparsable base or href). -/
def resolveStr (href baseUrl : String) : Option String :=
  match parseU baseUrl.data with
  | none => none
  | some b => (resolveU href.data b).map (fun r => String.mk (serializeU r))

/-- Host of a URL string, through the parser (used to state domain claims). -/
def hostOf (s : String) : Option String :=
  (parseU s.data).map (fun r => String.mk r.host)

/-- Well-formedness of a URL record: the invariants every parsed URL satisfies. -/
def wfU (r : URLRec) : Prop :=
  r.scheme ≠ [] ∧ r.scheme.all isLowerC = true ∧
  r.host ≠ [] ∧ r.host.all isHostChar = true ∧
  r.segs ≠ [] ∧
  (∀ s ∈ r.segs, s ≠ dotSeg ∧ s ≠ dotDotSeg ∧ s.all isPathChar = true) ∧
  (∀ q, r.query = some q → q.all isQueryChar = true) ∧
  (∀ f, r.fragment = some f → f.all isFragChar = true)

/-- Segment-level description of what `normalizeUrl` does to the path: drop the final
empty segment (one trailing `/`) unless the path is exactly `/`. -/
def normSegs (segs : List (List Char)) : List (List Char) :=
  if segs ≠ [[]] ∧ segs.getLast? = some [] then segs.dropLast else segs

/-- Segment-level description of `normalizeUrl`'s effect on a parsed URL. -/
def normRecOf (r : URLRec) : URLRec :=
  { r with fragment := none, segs := normSegs r.segs }

/-! ### Parsed-page model and metadata extractors

A parsed page is modelled by the results of exactly the cheerio queries
`server.js` performs: the selector texts, the `local-time[datetime]` elements,
and the anchors of the three sidebar selectors.  An anchor carries its `href`
attribute, its visible text, and the text of its `closest("section, table, div")`
ancestor (empty when there is none). -/

/-- One anchor as seen by `extractSidebarUrls` / `isSupportedCountryLink`. -/
structure Anchor where
  href : Option String
  text : String
  closestText : String
  deriving Repr, DecidableEq

/-- A parsed page: the outcome of each cheerio query `server.js` performs. -/
structure Page where
  /-- `$("main h1").first().text()` -/
  mainH1First : String
  /-- `$("h1").first().text()` -/
  h1First : String
  /-- `$("title").text()` -/
  titleText : String
  /-- `(text, datetime)` of each `local-time[datetime]` element, in document order. -/
  localTimes : List (String × String)
  /-- `$(".content-footer p").text()` -/
  contentFooterP : String
  /-- `$(".content-footer").text()` -/
  contentFooter : String
  /-- `$(".main p").text()` -/
  mainP : String
  /-- `$("main").text()` -/
  mainText : String
  /-- `$("article").text()` -/
  articleText : String
  /-- `$("header").text()` -/
  headerText : String
  /-- `$("body").text()` -/
  bodyText : String
  /-- anchors of `nav[data-bi-name="toc"] a[href]`, in document order -/
  tocAnchors : List Anchor
  /-- anchors of `nav[role="navigation"] a[href]`, in document order -/
  navAnchors : List Anchor
  /-- anchors of `aside a[href]`, in document order -/
  asideAnchors : List Anchor
  deriving Repr

/-- Translation of `extractTitle` (`||` chains on JS strings treat `""` as falsy). -/
def extractTitle (p : Page) : String :=
  let a := trimStr p.mainH1First
  if a ≠ "" then a
  else
    let b := trimStr p.h1First
    if b ≠ "" then b
    else trimStr p.titleText

/-! #### Date machinery

Models of `new Date(iso)` (ISO-8601 fragment: `YYYY-MM-DD` and
`YYYY-MM-DDTHH:MM:SSZ`, both denoting UTC instants, with calendar validation as in
ECMA-262 Date.parse) and of `Date.prototype.toLocaleDateString("en-US")`, which
renders the instant as `M/D/YYYY` in the process's local timezone.  The timezone
is made explicit as an offset in minutes east of UTC (`0` = UTC). -/

/-- Days from the civil epoch 1970-01-01 (Hinnant's `days_from_civil`). -/
def daysFromCivil (y m d : Int) : Int :=
  let y' := if m ≤ 2 then y - 1 else y
  let era := Int.fdiv y' 400
  let yoe := y' - era * 400
  let mp := if m ≤ 2 then m + 9 else m - 3
  let doy := Int.fdiv (153 * mp + 2) 5 + d - 1
  let doe := yoe * 365 + Int.fdiv yoe 4 - Int.fdiv yoe 100 + doy
  era * 146097 + doe - 719468

/-- Civil date from days since 1970-01-01 (Hinnant's `civil_from_days`). -/
def civilFromDays (z0 : Int) : Int × Int × Int :=
  let z := z0 + 719468
  let era := Int.fdiv z 146097
  let doe := z - era * 146097
  let yoe := Int.fdiv (doe - Int.fdiv doe 1460 + Int.fdiv doe 36524 - Int.fdiv doe 146096) 365
  let y := yoe + era * 400
  let doy := doe - (365 * yoe + Int.fdiv yoe 4 - Int.fdiv yoe 100)
  let mp := Int.fdiv (5 * doy + 2) 153
  let d := doy - Int.fdiv (153 * mp + 2) 5 + 1
  let m := if mp < 10 then mp + 3 else mp - 9
  (if m ≤ 2 then y + 1 else y, m, d)

/-- Is `y` a leap year? -/
def isLeap (y : Int) : Bool := (y % 4 = 0 ∧ y % 100 ≠ 0) ∨ y % 400 = 0

/-- Days in month `m` of year `y`. -/
def daysInMonth (y m : Int) : Int :=
  if m = 2 then (if isLeap y then 29 else 28)
  else if m = 4 ∨ m = 6 ∨ m = 9 ∨ m = 11 then 30
  else 31

/-- Numeric value of a digit character. -/
def digitVal (c : Char) : Nat := cn c - 48

/-- Value of a fixed-width digit block. -/
def digitsVal (l : List Char) : Nat := l.foldl (fun acc c => acc * 10 + digitVal c) 0

/-- Model of `new Date(iso).getTime()` on the ISO fragment; `none` is `NaN`
(an invalid date). -/
def parseJsDate (iso : String) : Option Int :=
  match iso.data with
  | [y1, y2, y3, y4, '-', m1, m2, '-', d1, d2] =>
    if [y1, y2, y3, y4, m1, m2, d1, d2].all isDigitC then
      let y : Int := digitsVal [y1, y2, y3, y4]
      let m : Int := digitsVal [m1, m2]
      let d : Int := digitsVal [d1, d2]
      if 1 ≤ m ∧ m ≤ 12 ∧ 1 ≤ d ∧ d ≤ daysInMonth y m then
        some (daysFromCivil y m d * 86400000)
      else none
    else none
  | [y1, y2, y3, y4, '-', m1, m2, '-', d1, d2, 'T', h1, h2, ':', i1, i2, ':', s1, s2, 'Z'] =>
    if [y1, y2, y3, y4, m1, m2, d1, d2, h1, h2, i1, i2, s1, s2].all isDigitC then
      let y : Int := digitsVal [y1, y2, y3, y4]
      let m : Int := digitsVal [m1, m2]
      let d : Int := digitsVal [d1, d2]
      let hh : Int := digitsVal [h1, h2]
      let mi : Int := digitsVal [i1, i2]
      let ss : Int := digitsVal [s1, s2]
      if 1 ≤ m ∧ m ≤ 12 ∧ 1 ≤ d ∧ d ≤ daysInMonth y m ∧ hh ≤ 23 ∧ mi ≤ 59 ∧ ss ≤ 59 then
        some (daysFromCivil y m d * 86400000 + (hh * 3600 + mi * 60 + ss) * 1000)
      else none
    else none
  | _ => none

/-- Model of `Date.prototype.toLocaleDateString("en-US")`: `M/D/YYYY` in the local
timezone given by `tzOffsetMin` minutes east of UTC. -/
def toLocaleDateStringEnUS (ms tzOffsetMin : Int) : String :=
  let localMs := ms + tzOffsetMin * 60000
  let days := Int.fdiv localMs 86400000
  match civilFromDays days with
  | (y, m, d) => toString m ++ "/" ++ toString d ++ "/" ++ toString y

/-! #### Regex matchers

Direct implementations of the three regular expressions of `extractLastUpdated`,
with JS semantics (leftmost match, greedy quantifiers over disjoint classes,
`\d{1,2}` backtracking from two digits to one). -/

/-- Anchored match of `/^\d{2}\/\d{2}\/\d{4}$/`. -/
def matchMMDDYYYY (s : String) : Bool :=
  match s.data with
  | [a, b, '/', c, d, '/', e, f, g, h] => [a, b, c, d, e, f, g, h].all isDigitC
  | _ => false

/-- Case-insensitive literal match at the head; the pattern is given lowercase.
Returns the rest of the input on success. -/
def ciAt : List Char → List Char → Option (List Char)
  | [], cs => some cs
  | _ :: _, [] => none
  | p :: ps, c :: cs => if lowerChar c = p then ciAt ps cs else none

/-- Match `[A-Za-z]+\s+\d{1,2},\s+\d{4}` at the head; returns the matched text
(the capture group of both date regexes) and the rest after the four year digits. -/
def matchDatePat (cs : List Char) : Option (List Char × List Char) :=
  let letters := cs.takeWhile isAlphaC
  if letters = [] then none
  else
    let r1 := cs.dropWhile isAlphaC
    let sp1 := r1.takeWhile isJsSpace
    if sp1 = [] then none
    else
      let r2 := r1.dropWhile isJsSpace
      let digs := r2.takeWhile isDigitC
      if digs.length = 1 ∨ digs.length = 2 then
        match r2.drop digs.length with
        | ',' :: r3 =>
          let sp2 := r3.takeWhile isJsSpace
          if sp2 = [] then none
          else
            let r4 := r3.dropWhile isJsSpace
            let year := r4.takeWhile isDigitC
            if 4 ≤ year.length then
              some (letters ++ sp1 ++ digs ++ ',' :: sp2 ++ year.take 4, r4.drop 4)
            else none
        | _ => none
      else none

/-- Attempt `/Last\s*updated[:\s]*(...)/i` at the current position. -/
def attemptLU (cs : List Char) : Option (List Char) :=
  match ciAt ['l', 'a', 's', 't'] cs with
  | none => none
  | some r1 =>
    match ciAt ['u', 'p', 'd', 'a', 't', 'e', 'd'] (r1.dropWhile isJsSpace) with
    | none => none
    | some r2 =>
      match matchDatePat (r2.dropWhile (fun c => c = ':' || isJsSpace c)) with
      | none => none
      | some (cap, _) => some cap

/-- Leftmost search for `/Last\s*updated[:\s]*([A-Za-z]+\s+\d{1,2},\s+\d{4})/i`,
returning the capture group. -/
def searchLU : List Char → Option (List Char)
  | [] => none
  | c :: rest =>
    match attemptLU (c :: rest) with
    | some cap => some cap
    | none => searchLU rest

/-- Attempt `/\b([A-Za-z]+\s+\d{1,2},\s+\d{4})\b/` at the current position (the
leading `\b` is checked by the caller; the trailing `\b` is checked here). -/
def attemptLoose (cs : List Char) : Option (List Char) :=
  match matchDatePat cs with
  | none => none
  | some (cap, rest) =>
    match rest.head? with
    | some c => if isWordC c then none else some cap
    | none => some cap

/-- Leftmost search for `/\b([A-Za-z]+\s+\d{1,2},\s+\d{4})\b/`; `prevIsWord` says
whether the character before the current position is a word character. -/
def searchLoose (prevIsWord : Bool) : List Char → Option (List Char)
  | [] => none
  | c :: rest =>
    match (if prevIsWord then none else attemptLoose (c :: rest)) with
    | some cap => some cap
    | none => searchLoose (isWordC c) rest

/-- Step 2 of `extractLastUpdated`: try the `Last updated` regex on each selector
text in order, returning the first trimmed capture. -/
def firstSelMatch : List String → Option String
  | [] => none
  | t :: ts =>
    match searchLU t.data with
    | some cap => some (trimStr (String.mk cap))
    | none => firstSelMatch ts

/-- Translation of `extractLastUpdated` from `src/server.js`.  `tzOffsetMin` is the
process's local-timezone offset in minutes east of UTC, used by
`toLocaleDateString("en-US")` (step 1's datetime fallback); the `url` parameter of
the source is only interpolated into a console warning and is omitted.
Step 1 uses the `local-time[datetime]` elements (`.text()` concatenates all their
texts; `.attr("datetime")` reads the first); step 2 scans six selector texts for
`Last updated: Month D, YYYY`; step 3 scans the body text for a bare
`Month D, YYYY`; otherwise the sentinel `"UNKNOWN"`. -/
def extractLastUpdated (p : Page) (tzOffsetMin : Int) : String :=
  let s1 : Option String :=
    if p.localTimes.isEmpty then none
    else
      let textDate := trimStr (joinStr (p.localTimes.map Prod.fst))
      if matchMMDDYYYY textDate then some textDate
      else
        match p.localTimes.head? with
        | none => none
        | some lt =>
          if lt.2 = "" then none
          else
            match parseJsDate lt.2 with
            | some ms => some (toLocaleDateStringEnUS ms tzOffsetMin)
            | none => none
  match s1 with
  | some r => r
  | none =>
    match firstSelMatch [p.contentFooterP, p.contentFooter, p.mainP,
                         p.mainText, p.articleText, p.headerText] with
    | some r => r
    | none =>
      match searchLoose false p.bodyText.data with
      | some cap => trimStr (String.mk cap)
      | none => "UNKNOWN"

/-- Translation of `isSupportedCountryLink` from `src/server.js`. -/
def isSupportedCountryLink (a : Anchor) : Bool :=
  let text := lowerStr (trimStr a.text)
  let href := lowerStr (a.href.getD "")
  if strIncludes text "supported countries" ||
     strIncludes text "supported regions" ||
     strIncludes text "supported country" ||
     strIncludes text "countries/regions" ||
     strIncludes text "country/region" ||
     strIncludes href "country-region" ||
     (strIncludes href "availability" && strIncludes href "country") then
    true
  else
    let parentText := lowerStr a.closestText
    strIncludes parentText "supported countries" ||
    strIncludes parentText "supported regions" ||
    strIncludes parentText "country/region"

/-- JS `Set.prototype.add` followed by `Array.from`: insertion-ordered, duplicates
collapse.  The element type is `Option String` because `normalizeUrl`'s `null` can
be inserted. -/
def addLink (links : List (Option String)) (x : Option String) : List (Option String) :=
  if x ∈ links then links else links ++ [x]

/-- The per-anchor body of `extractSidebarUrls`'s `each` callback. -/
def sidebarStep (baseUrl : String) (links : List (Option String)) (a : Anchor) :
    List (Option String) :=
  match a.href with
  | none => links
  | some href =>
    if href = "" then links
    else if strStartsWith href "#" then links
    else
      match resolveStr href baseUrl with
      | none => links
      | some abs =>
        if strStartsWith abs "https://learn.microsoft.com/" = false then links
        else if isSupportedCountryLink a then links
        else addLink links (normalizeUrl abs)

/-- Translation of `extractSidebarUrls` from `src/server.js`: iterate the three
sidebar selectors in order, keep in-domain anchors that are not country/region
links, and collect `normalizeUrl` of each resolved absolute URL into a `Set`. -/
def extractSidebarUrls (p : Page) (baseUrl : String) : List (Option String) :=
  List.foldl (sidebarStep baseUrl) [] (p.tocAnchors ++ p.navAnchors ++ p.asideAnchors)

/-! ### Crawl model (`scrapeAll` from `src/server.js`)

The `while (queue.length > 0)` loop is modelled as a state-transition system:
`crawlStep` is one iteration of the loop body, `crawlRun` iterates it with fuel
(the source loop has no a-priori termination bound, since fetched pages feed the
queue).  The network is an explicit environment `CrawlEnv`.  Besides the fields of
the source (`visited`, `queued`, `queue`, `seedResults`, `discoveredResults`,
`pageCount`), the state carries ghost logs that record observable events in order:
`fetchLog` (URLs for which a fetch was initiated — the `[n] Scraping:` lines),
`dequeueLog` (results of `queue.shift()`), `enqueueLog` (every push into `queue`,
the seeds included), and `recordLog` (records in creation order). -/

/-- A page record `{Title, URL, LastUpdated}`. -/
structure PageRecord where
  Title : String
  URL : String
  LastUpdated : String
  deriving Repr, DecidableEq

/-- Outcome of `fetch(current)`: a thrown network error, a non-`ok` HTTP status, or
a body that cheerio parses into a `Page`. -/
inductive FetchResult where
  | networkError : FetchResult
  | httpError : Nat → FetchResult
  | success : Page → FetchResult

/-- The crawl's environment: the network and the process timezone (minutes east of
UTC, used by `toLocaleDateString`). -/
structure CrawlEnv where
  fetch : String → FetchResult
  tzOffsetMin : Int

/-- The mutable state of `scrapeAll`'s loop, plus ghost event logs. -/
structure CrawlState where
  visited : List String
  queued : List String
  queue : List String
  seedResults : List PageRecord
  discoveredResults : List PageRecord
  pageCount : Nat
  fetchLog : List String
  dequeueLog : List String
  enqueueLog : List String
  recordLog : List PageRecord

/-- The record built for a successfully fetched page. -/
def recordOf (page : Page) (current : String) (tzOffsetMin : Int) : PageRecord :=
  { Title := extractTitle page, URL := current,
    LastUpdated := extractLastUpdated page tzOffsetMin }

/-- Classification at record-creation time: `seedSet.has(current)` decides the
result list the record is pushed to. -/
def addRecord (seedSet : List String) (s : CrawlState) (r : PageRecord) : CrawlState :=
  if seedSet.contains r.URL then
    { s with seedResults := s.seedResults ++ [r], recordLog := s.recordLog ++ [r] }
  else
    { s with discoveredResults := s.discoveredResults ++ [r], recordLog := s.recordLog ++ [r] }

/-- One iteration of the `for (const u of extraUrls)` loop:
`normalizeUrl(u)` (with `normalizeUrl(null) = null`), then
`if (!norm || visited.has(norm) || queued.has(norm)) continue;
 queued.add(norm); queue.push(norm);`. -/
def enqueueOne (s : CrawlState) (u : Option String) : CrawlState :=
  match (match u with
         | none => none
         | some str => normalizeUrl str) with
  | none => s
  | some n =>
    if n = "" ∨ n ∈ s.visited ∨ n ∈ s.queued then s
    else { s with queued := s.queued ++ [n], queue := s.queue ++ [n],
                  enqueueLog := s.enqueueLog ++ [n] }

/-- The discovered-link enqueue loop over one page's `extraUrls`. -/
def enqueueLinks (s : CrawlState) (us : List (Option String)) : CrawlState :=
  us.foldl enqueueOne s

/-- One iteration of `while (queue.length > 0) { ... }` from `scrapeAll`:
shift; skip if falsy or already visited; mark visited; fetch (failures abandon the
URL); extract, record, classify; discover and enqueue sidebar links. -/
def crawlStep (env : CrawlEnv) (seedSet : List String) (s : CrawlState) : CrawlState :=
  match s.queue with
  | [] => s
  | current :: rest =>
    let s1 : CrawlState := { s with queue := rest, dequeueLog := s.dequeueLog ++ [current] }
    if current = "" ∨ current ∈ s1.visited then s1
    else
      let s2 : CrawlState :=
        { s1 with visited := s1.visited ++ [current], pageCount := s1.pageCount + 1,
                  fetchLog := s1.fetchLog ++ [current] }
      match env.fetch current with
      | FetchResult.networkError => s2
      | FetchResult.httpError _ => s2
      | FetchResult.success page =>
        let s3 := addRecord seedSet s2 (recordOf page current env.tzOffsetMin)
        enqueueLinks s3 (extractSidebarUrls page current)

/-- Fuelled iteration of the crawl loop; stops when the queue is empty. -/
def crawlRun (env : CrawlEnv) (seedSet : List String) : Nat → CrawlState → CrawlState
  | 0, s => s
  | Nat.succ n, s =>
    match s.queue with
    | [] => s
    | _ :: _ => crawlRun env seedSet n (crawlStep env seedSet s)

/-- Insertion-ordered deduplication: `new Set(array)` read back in order. -/
def dedupKeepFirst : List String → List String
  | [] => []
  | s :: rest => s :: (dedupKeepFirst rest).filter (fun t => t ≠ s)

/-- Seed-list preprocessing of `scrapeAll`:
`content.split(/\r?\n/).map(trim).filter(Boolean).map(normalizeUrl).filter(Boolean)`. -/
def seedUrlsOf (content : String) : List String :=
  let rawList := ((splitLinesJs content).map trimStr).filter (fun l => l ≠ "")
  (rawList.map normalizeUrl).filterMap (fun o =>
    match o with
    | none => none
    | some s => if s = "" then none else some s)

/-- Initial crawl state for a seed-file content: `visited = ∅`,
`queued = new Set(seedUrls)`, `queue = [...seedUrls]` (duplicates kept). -/
def initState (content : String) : CrawlState :=
  let seedUrls := seedUrlsOf content
  { visited := [], queued := dedupKeepFirst seedUrls, queue := seedUrls,
    seedResults := [], discoveredResults := [], pageCount := 0,
    fetchLog := [], dequeueLog := [], enqueueLog := seedUrls, recordLog := [] }

/-- The crawl state after `fuel` loop iterations on the given seed-file content. -/
def scrapeState (content : String) (env : CrawlEnv) (fuel : Nat) : CrawlState :=
  crawlRun env (seedUrlsOf content) fuel (initState content)

/-- Translation of `scrapeAll`: a missing `urls.txt` (`urlsTxt = none`) throws
before any fetch; otherwise the loop runs and `[...seedResults, ...discoveredResults]`
is returned. -/
def scrapeAll (urlsTxt : Option String) (env : CrawlEnv) (fuel : Nat) :
    Except String (List PageRecord) :=
  match urlsTxt with
  | none => Except.error "urls.txt not found. Place it next to server.js."
  | some content =>
    let sF := scrapeState content env fuel
    Except.ok (sF.seedResults ++ sF.discoveredResults)

/-! ### CSV encoder (`toCsv`) and a reference RFC 4180 parser -/

/-- JS `String(val).replace(/"/g, '""')`: double every double quote. -/
def escQuote : List Char → List Char
  | [] => []
  | c :: rest => if c = '"' then '"' :: '"' :: escQuote rest else c :: escQuote rest

/-- The `esc` helper of `toCsv`: wrap in quotes, double embedded quotes. -/
def esc (val : String) : String := String.mk ('"' :: escQuote val.data ++ ['"'])

/-- Translation of `toCsv` from `src/server.js`: header `Title,URL,LastUpdated`,
one row of three individually quoted fields per record, rows joined with CRLF. -/
def toCsv (rows : List PageRecord) : String :=
  let header := joinWith "," ["Title", "URL", "LastUpdated"]
  let lines := header :: rows.map (fun row =>
    joinWith "," [esc row.Title, esc row.URL, esc row.LastUpdated])
  joinWith "\r\n" lines

/-- Reference parser, quoted-field body: consume up to the closing quote, decoding
`""` as one quote; returns the field and the input after the closing quote. -/
def parseQuotedBody : List Char → Option (List Char × List Char)
  | [] => none
  | c :: rest =>
    if c = '"' then
      match rest with
      | '"' :: rest2 =>
        match parseQuotedBody rest2 with
        | some (f, r) => some ('"' :: f, r)
        | none => none
      | _ => some ([], rest)
    else
      match parseQuotedBody rest with
      | some (f, r) => some (c :: f, r)
      | none => none

/-- Reference parser, one field: quoted, or bare up to `,`/CR/LF. -/
def parseCsvField (cs : List Char) : Option (List Char × List Char) :=
  match cs with
  | '"' :: rest => parseQuotedBody rest
  | _ =>
    let f := cs.takeWhile (fun c => !(c = ',' || c = '\r' || c = '\n'))
    some (f, cs.dropWhile (fun c => !(c = ',' || c = '\r' || c = '\n')))

/-- Reference parser, one record: comma-separated fields (`fuel` bounds the field
count; any `fuel ≥` the field count gives the same result). -/
def parseCsvRecord : Nat → List Char → Option (List String × List Char)
  | 0, _ => none
  | Nat.succ n, cs =>
    match parseCsvField cs with
    | none => none
    | some (f, rest) =>
      match rest with
      | ',' :: rest2 =>
        match parseCsvRecord n rest2 with
        | some (fs, r) => some (String.mk f :: fs, r)
        | none => none
      | _ => some ([String.mk f], rest)

/-- Reference parser, all records: CRLF-separated (`fuel` bounds the record count). -/
def parseCsvRecords : Nat → List Char → Option (List (List String))
  | 0, _ => none
  | Nat.succ n, cs =>
    match parseCsvRecord (cs.length + 1) cs with
    | none => none
    | some (fs, rest) =>
      match rest with
      | [] => some [fs]
      | '\r' :: '\n' :: rest2 =>
        match parseCsvRecords n rest2 with
        | some rs => some (fs :: rs)
        | none => none
      | _ => none

/-- A standard (RFC 4180 with CRLF) CSV parser, used as the round-trip reference
for the output contract. -/
def parseCsv (s : String) : Option (List (List String)) :=
  parseCsvRecords (s.data.length + 1) s.data

/-- The query-then-fragment tail of the serializer. -/
def qfData (q f : Option (List Char)) : List Char :=
  (match q with
   | none => []
   | some x => '?' :: x) ++
  (match f with
   | none => []
   | some x => '#' :: x)

/-! ### Crawl invariants (used by the frontier theorems) -/

/-- Basic loop invariant: queue entries are truthy, each URL is fetched at most
once, fetched and dequeued URLs are visited. -/
def BaseInv (s : CrawlState) : Prop :=
  (∀ u ∈ s.queue, u ≠ "") ∧ s.fetchLog.Nodup ∧
  (∀ u ∈ s.fetchLog, u ∈ s.visited) ∧ (∀ u ∈ s.dequeueLog, u ∈ s.visited)

/-- Frontier invariant (holds when the seed list is duplicate-free): the queue and
the ever-enqueued set are duplicate-free, and `queued` tracks every enqueue. -/
def FrontierInv (s : CrawlState) : Prop :=
  s.queue.Nodup ∧ s.queued.Nodup ∧ (∀ u ∈ s.queue, u ∈ s.queued) ∧
  (∀ u ∈ s.visited, u ∈ s.queued) ∧ s.enqueueLog = s.queued

/-- Classification invariant: the two result lists are exactly the seed/discovered
filters of the creation-ordered record log. -/
def ClassInv (seeds : List String) (s : CrawlState) : Prop :=
  s.seedResults = s.recordLog.filter (fun r => seeds.contains r.URL) ∧
  s.discoveredResults = s.recordLog.filter (fun r => !(seeds.contains r.URL))

/-! ### Concrete fixtures (used by counterexamples and witnesses) -/

/-- A page on which every cheerio query comes back empty. -/
def emptyPage : Page :=
  { mainH1First := "", h1First := "", titleText := "", localTimes := [],
    contentFooterP := "", contentFooter := "", mainP := "", mainText := "",
    articleText := "", headerText := "", bodyText := "",
    tocAnchors := [], navAnchors := [], asideAnchors := [] }

/-- Fixture for the date extractor: the only timestamp signal is a machine-readable
`datetime` attribute `2024-03-15T00:00:00Z`; the element's visible text is empty
(so it does not match `MM/DD/YYYY`) and no other date text is present. -/
def c6Page : Page := { emptyPage with localTimes := [("", "2024-03-15T00:00:00Z")] }

/-- Fixture for the link discoverer: a single in-domain sidebar anchor whose href
resolves to `https://learn.microsoft.com/docs/` (note the trailing slash). -/
def linkPage : Page :=
  { emptyPage with
    tocAnchors := [{ href := some "https://learn.microsoft.com/docs/",
                     text := "Docs", closestText := "" }] }

/-- An environment in which every fetch fails with a network error. -/
def envFail : CrawlEnv := { fetch := fun _ => FetchResult.networkError, tzOffsetMin := 0 }

/-! ### Supporting lemmas: lists and characters -/

lemma takeWhile_dropWhile_app (p : Char → Bool) :
    ∀ (l₁ l₂ : List Char), (∀ c ∈ l₁, p c = true) →
      (∀ c, l₂.head? = some c → p c = false) →
      (l₁ ++ l₂).takeWhile p = l₁ ∧ (l₁ ++ l₂).dropWhile p = l₂
  | [], l₂, _, h2 => by
    cases l₂ with
    | nil => exact ⟨rfl, rfl⟩
    | cons c cs =>
      have hc := h2 c rfl
      exact ⟨by simp [List.takeWhile_cons, hc], by simp [List.dropWhile_cons, hc]⟩
  | a :: l, l₂, h1, h2 => by
    have ha : p a = true := h1 a (by simp)
    have ih := takeWhile_dropWhile_app p l l₂ (fun c hc => h1 c (by simp [hc])) h2
    exact ⟨by simp [List.takeWhile_cons, ha, ih.1], by simp [List.dropWhile_cons, ha, ih.2]⟩

lemma pathChar_ne_slash {c : Char} (h : isPathChar c = true) : c ≠ '/' := by
  intro hc
  subst hc
  exact absurd h (by decide)

lemma hostChar_notHostEnd {c : Char} (h : isHostChar c = true) : notHostEnd c = true := by
  simp only [isHostChar, isLowerC, isDigitC, Bool.or_eq_true, decide_eq_true_eq] at h
  simp only [notHostEnd, Bool.not_eq_true', decide_eq_false_iff_not]
  omega

lemma pathChar_notPQEnd {c : Char} (h : isPathChar c = true) : notPQEnd c = true := by
  simp only [isPathChar, isAlphaC, isLowerC, isUpperC, isDigitC, Bool.or_eq_true,
    decide_eq_true_eq] at h
  simp only [notPQEnd, Bool.not_eq_true', decide_eq_false_iff_not]
  omega

lemma pathOrSlash_notPQEnd {c : Char} (h : isPathOrSlash c = true) : notPQEnd c = true := by
  simp only [isPathOrSlash, Bool.or_eq_true, decide_eq_true_eq] at h
  rcases h with h | h
  · exact pathChar_notPQEnd h
  · simp only [notPQEnd, Bool.not_eq_true', decide_eq_false_iff_not]
    omega

lemma queryChar_notQEnd {c : Char} (h : isQueryChar c = true) : notQEnd c = true := by
  simp only [isQueryChar, isPathChar, isAlphaC, isLowerC, isUpperC, isDigitC,
    Bool.or_eq_true, decide_eq_true_eq] at h
  simp only [notQEnd, Bool.not_eq_true', decide_eq_false_iff_not]
  omega

lemma lowerC_notHostEnd {c : Char} (h : isLowerC c = true) : notHostEnd c = true := by
  simp only [isLowerC, decide_eq_true_eq] at h
  simp only [notHostEnd, Bool.not_eq_true', decide_eq_false_iff_not]
  omega

lemma splitOnSlash_ne_nil : ∀ cs : List Char, splitOnSlash cs ≠ []
  | [] => by simp [splitOnSlash]
  | c :: cs => by
    simp only [splitOnSlash]
    split
    · simp
    · cases h : splitOnSlash cs with
      | nil => exact absurd h (splitOnSlash_ne_nil cs)
      | cons s ss => simp [h]

lemma splitOnSlash_app (s : List Char) (cs : List Char) (hs : ∀ c ∈ s, c ≠ '/') :
    ∀ h tl, splitOnSlash cs = h :: tl → splitOnSlash (s ++ cs) = (s ++ h) :: tl := by
  induction s with
  | nil => intro h tl hcs; simpa using hcs
  | cons a s ih =>
    intro h tl hcs
    have ha : a ≠ '/' := hs a (by simp)
    have hih := ih (fun c hc => hs c (by simp [hc])) h tl hcs
    simp only [List.cons_append, splitOnSlash, if_neg ha]
    rw [show s.append cs = s ++ cs from rfl, hih]

lemma splitOnSlash_single (s : List Char) (hs : ∀ c ∈ s, c ≠ '/') :
    splitOnSlash s = [s] := by
  have := splitOnSlash_app s [] hs [] [] rfl
  simpa using this

lemma splitOnSlash_joinSlash :
    ∀ segs : List (List Char), segs ≠ [] →
      (∀ t ∈ segs, ∀ c ∈ t, c ≠ '/') →
      splitOnSlash (joinSlash segs) = segs
  | [], h, _ => absurd rfl h
  | [s], _, hc => by
    simp only [joinSlash]
    exact splitOnSlash_single s (hc s (by simp))
  | s :: t :: rest, _, hc => by
    have ih := splitOnSlash_joinSlash (t :: rest) (by simp)
      (fun u hu c hcu => hc u (by simp [hu]) c hcu)
    show splitOnSlash (s ++ '/' :: joinSlash (t :: rest)) = s :: t :: rest
    have hstep : splitOnSlash ('/' :: joinSlash (t :: rest)) = [] :: t :: rest := by
      simp only [splitOnSlash, ih]
      simp
    have := splitOnSlash_app s ('/' :: joinSlash (t :: rest))
      (fun c hcs => hc s (by simp) c hcs) [] (t :: rest) hstep
    simpa using this

lemma joinSlash_mem :
    ∀ (segs : List (List Char)) (c : Char), c ∈ joinSlash segs →
      c = '/' ∨ ∃ s ∈ segs, c ∈ s
  | [], c, h => by simp [joinSlash] at h
  | [s], c, h => by
    right
    exact ⟨s, by simp, by simpa [joinSlash] using h⟩
  | s :: t :: rest, c, h => by
    rw [show joinSlash (s :: t :: rest) = s ++ '/' :: joinSlash (t :: rest) from rfl] at h
    rcases List.mem_append.mp h with h | h
    · exact Or.inr ⟨s, by simp, h⟩
    · rcases List.mem_cons.mp h with h | h
      · exact Or.inl h
      · rcases joinSlash_mem (t :: rest) c h with h | ⟨u, hu, hcu⟩
        · exact Or.inl h
        · exact Or.inr ⟨u, by simp [hu], hcu⟩

lemma splitOnSlash_chars :
    ∀ (cs : List Char) (x : List Char), x ∈ splitOnSlash cs →
      ∀ c ∈ x, c ∈ cs ∧ c ≠ '/'
  | [], x, hx => by
    simp only [splitOnSlash, List.mem_singleton] at hx
    subst hx
    intro c hc
    simp at hc
  | a :: cs, x, hx => by
    simp only [splitOnSlash] at hx
    by_cases ha : a = '/'
    · rw [if_pos ha] at hx
      rcases List.mem_cons.mp hx with hx | hx
      · subst hx; intro c hc; simp at hc
      · intro c hc
        have := splitOnSlash_chars cs x hx c hc
        exact ⟨by simp [this.1], this.2⟩
    · rw [if_neg ha] at hx
      cases h : splitOnSlash cs with
      | nil => exact absurd h (splitOnSlash_ne_nil cs)
      | cons s ss =>
        rw [h] at hx
        rcases List.mem_cons.mp hx with hx | hx
        · subst hx
          intro c hc
          rcases List.mem_cons.mp hc with hc | hc
          · subst hc; exact ⟨by simp, ha⟩
          · have := splitOnSlash_chars cs s (by simp [h]) c hc
            exact ⟨by simp [this.1], this.2⟩
        · intro c hc
          have := splitOnSlash_chars cs x (by simp [h, hx]) c hc
          exact ⟨by simp [this.1], this.2⟩

lemma removeDotsGo_no_dots :
    ∀ (segs acc : List (List Char)),
      (∀ s ∈ segs, s ≠ dotSeg ∧ s ≠ dotDotSeg) →
      removeDotsGo segs acc = acc.reverse ++ segs
  | [], acc, _ => by simp [removeDotsGo]
  | [s], acc, h => by
    have hs := h s (by simp)
    simp [removeDotsGo, hs.2, hs.1]
  | s :: t :: rest, acc, h => by
    have hs := h s (by simp)
    have ih := removeDotsGo_no_dots (t :: rest) (s :: acc)
      (fun u hu => h u (by simp at hu ⊢; tauto))
    simp only [removeDotsGo, if_neg hs.2, if_neg hs.1, ih]
    simp

lemma removeDots_id (segs : List (List Char))
    (h : ∀ s ∈ segs, s ≠ dotSeg ∧ s ≠ dotDotSeg) :
    removeDots segs = segs := by
  simpa [removeDots] using removeDotsGo_no_dots segs [] h

lemma removeDotsGo_mem :
    ∀ (segs acc : List (List Char)) (x : List Char), x ∈ removeDotsGo segs acc →
      x ∈ acc ∨ x ∈ segs ∨ x = []
  | [], acc, x, hx => by
    simp only [removeDotsGo] at hx
    exact Or.inl (List.mem_reverse.mp hx)
  | [s], acc, x, hx => by
    simp only [removeDotsGo] at hx
    split at hx
    · rcases List.mem_append.mp hx with hx | hx
      · exact Or.inl (List.mem_of_mem_drop (List.mem_reverse.mp hx))
      · simp at hx; exact Or.inr (Or.inr hx)
    · split at hx
      · rcases List.mem_append.mp hx with hx | hx
        · exact Or.inl (List.mem_reverse.mp hx)
        · simp at hx; exact Or.inr (Or.inr hx)
      · rcases List.mem_cons.mp (List.mem_reverse.mp hx) with hx | hx
        · exact Or.inr (Or.inl (by simp [hx]))
        · exact Or.inl hx
  | s :: t :: rest, acc, x, hx => by
    simp only [removeDotsGo] at hx
    split at hx
    · rcases removeDotsGo_mem (t :: rest) (acc.drop 1) x hx with h | h | h
      · exact Or.inl (List.mem_of_mem_drop h)
      · exact Or.inr (Or.inl (by simp [h]))
      · exact Or.inr (Or.inr h)
    · split at hx
      · rcases removeDotsGo_mem (t :: rest) acc x hx with h | h | h
        · exact Or.inl h
        · exact Or.inr (Or.inl (by simp [h]))
        · exact Or.inr (Or.inr h)
      · rcases removeDotsGo_mem (t :: rest) (s :: acc) x hx with h | h | h
        · rcases List.mem_cons.mp h with h | h
          · exact Or.inr (Or.inl (by simp [h]))
          · exact Or.inl h
        · exact Or.inr (Or.inl (by simp [h]))
        · exact Or.inr (Or.inr h)

lemma removeDots_mem (segs : List (List Char)) (x : List Char)
    (hx : x ∈ removeDots segs) : x ∈ segs ∨ x = [] := by
  rcases removeDotsGo_mem segs [] x hx with h | h
  · simp at h
  · exact h

lemma removeDotsGo_ne_nil :
    ∀ (segs acc : List (List Char)), segs ≠ [] → removeDotsGo segs acc ≠ []
  | [], _, h, _ => absurd rfl h
  | [s], acc, _, hx => by
    simp only [removeDotsGo] at hx
    split at hx
    · simp at hx
    · split at hx
      · simp at hx
      · simpa using congrArg List.length hx
  | s :: t :: rest, acc, _, hx => by
    simp only [removeDotsGo] at hx
    split at hx
    · exact removeDotsGo_ne_nil (t :: rest) (acc.drop 1) (by simp) hx
    · split at hx
      · exact removeDotsGo_ne_nil (t :: rest) acc (by simp) hx
      · exact removeDotsGo_ne_nil (t :: rest) (s :: acc) (by simp) hx

lemma removeDotsGo_noDot :
    ∀ (segs acc : List (List Char)),
      (∀ a ∈ acc, a ≠ dotSeg ∧ a ≠ dotDotSeg) →
      ∀ x ∈ removeDotsGo segs acc, x ≠ dotSeg ∧ x ≠ dotDotSeg
  | [], acc, hacc, x, hx => by
    simp only [removeDotsGo] at hx
    exact hacc x (List.mem_reverse.mp hx)
  | [s], acc, hacc, x, hx => by
    simp only [removeDotsGo] at hx
    have hnil : ([] : List Char) ≠ dotSeg ∧ ([] : List Char) ≠ dotDotSeg := by
      constructor <;> decide
    split at hx
    · rcases List.mem_append.mp hx with hx | hx
      · exact hacc x (List.mem_of_mem_drop (List.mem_reverse.mp hx))
      · simp at hx; simp [hx, hnil.1, hnil.2]
    · split at hx
      · rcases List.mem_append.mp hx with hx | hx
        · exact hacc x (List.mem_reverse.mp hx)
        · simp at hx; simp [hx, hnil.1, hnil.2]
      · rcases List.mem_cons.mp (List.mem_reverse.mp hx) with hx | hx
        · subst hx
          constructor
          · rename_i h1 h2; exact h2
          · rename_i h1 h2; exact h1
        · exact hacc x hx
  | s :: t :: rest, acc, hacc, x, hx => by
    simp only [removeDotsGo] at hx
    split at hx
    · exact removeDotsGo_noDot (t :: rest) (acc.drop 1)
        (fun a ha => hacc a (List.mem_of_mem_drop ha)) x hx
    · split at hx
      · exact removeDotsGo_noDot (t :: rest) acc hacc x hx
      · refine removeDotsGo_noDot (t :: rest) (s :: acc) ?_ x hx
        intro a ha
        rcases List.mem_cons.mp ha with ha | ha
        · subst ha
          constructor
          · rename_i h1 h2; exact h2
          · rename_i h1 h2; exact h1
        · exact hacc a ha

lemma removeDots_noDot (segs : List (List Char)) :
    ∀ x ∈ removeDots segs, x ≠ dotSeg ∧ x ≠ dotDotSeg :=
  removeDotsGo_noDot segs [] (by simp)

lemma removeDots_ne_nil (segs : List (List Char)) (h : segs ≠ []) :
    removeDots segs ≠ [] :=
  removeDotsGo_ne_nil segs [] h

lemma cn_inj {c d : Char} (h : cn c = cn d) : c = d := by
  apply Char.ext
  have hv : c.val.toNat = d.val.toNat := h
  exact UInt32.ext (by exact_mod_cast hv)

lemma pathOrSlash_cases {c : Char} (h : isPathOrSlash c = true) :
    isPathChar c = true ∨ c = '/' := by
  simp only [isPathOrSlash, Bool.or_eq_true, decide_eq_true_eq] at h
  rcases h with h | h
  · exact Or.inl h
  · exact Or.inr (cn_inj (show cn c = cn '/' from h))

lemma joinSlash_notPQEnd (segs : List (List Char))
    (h : ∀ s ∈ segs, s.all isPathChar = true) :
    ∀ c ∈ joinSlash segs, notPQEnd c = true := by
  intro c hc
  rcases joinSlash_mem segs c hc with hc | ⟨s, hs, hcs⟩
  · subst hc; decide
  · exact pathChar_notPQEnd (List.all_eq_true.mp (h s hs) c hcs)

lemma joinSlash_pathOrSlash (segs : List (List Char))
    (h : ∀ s ∈ segs, s.all isPathChar = true) :
    ∀ c ∈ joinSlash segs, isPathOrSlash c = true := by
  intro c hc
  rcases joinSlash_mem segs c hc with hc | ⟨s, hs, hcs⟩
  · subst hc; decide
  · simp only [isPathOrSlash, Bool.or_eq_true]
    exact Or.inl (List.all_eq_true.mp (h s hs) c hcs)


lemma parseQF_round (scheme host : List Char) (segs : List (List Char))
    (q f : Option (List Char))
    (hq : ∀ x, q = some x → x.all isQueryChar = true)
    (hf : ∀ x, f = some x → x.all isFragChar = true) :
    parseQF scheme host segs (qfData q f) = some ⟨scheme, host, segs, q, f⟩ := by
  cases q with
  | none =>
    cases f with
    | none => rfl
    | some x =>
      show parseQF scheme host segs ('#' :: x) = _
      simp [parseQF, hf x rfl]
  | some xq =>
    have hxq := hq xq rfl
    have h1 : ∀ c ∈ xq, notQEnd c = true :=
      fun c hc => queryChar_notQEnd (List.all_eq_true.mp hxq c hc)
    cases f with
    | none =>
      show parseQF scheme host segs (('?' :: xq) ++ []) = _
      simp only [List.append_nil]
      obtain ⟨ht, hd⟩ := takeWhile_dropWhile_app notQEnd xq [] h1 (by simp)
      simp only [List.append_nil] at ht hd
      simp [parseQF, ht, hd, hxq]
    | some x =>
      show parseQF scheme host segs (('?' :: xq) ++ ('#' :: x)) = _
      simp only [List.cons_append]
      obtain ⟨ht, hd⟩ := takeWhile_dropWhile_app notQEnd xq ('#' :: x) h1
        (by intro c hc; simp at hc; subst hc; decide)
      simp [parseQF, ht, hd, hxq, hf x rfl]

lemma parsePQF_round (scheme host : List Char) (segs : List (List Char))
    (tail : List Char) (hsegs_ne : segs ≠ [])
    (hchars : ∀ s ∈ segs, s ≠ dotSeg ∧ s ≠ dotDotSeg ∧ s.all isPathChar = true)
    (htail : ∀ c, tail.head? = some c → notPQEnd c = false) :
    parsePQF scheme host ('/' :: (joinSlash segs ++ tail)) =
      parseQF scheme host segs tail := by
  have hall : ∀ s ∈ segs, s.all isPathChar = true := fun s hs => (hchars s hs).2.2
  obtain ⟨ht, hd⟩ := takeWhile_dropWhile_app notPQEnd (joinSlash segs) tail
    (joinSlash_notPQEnd segs hall) htail
  have hsplit : splitOnSlash (joinSlash segs) = segs :=
    splitOnSlash_joinSlash segs hsegs_ne
      (fun t htm c hc => pathChar_ne_slash (List.all_eq_true.mp (hall t htm) c hc))
  have hrd : removeDots segs = segs :=
    removeDots_id segs (fun s hs => ⟨(hchars s hs).1, (hchars s hs).2.1⟩)
  show parsePQF scheme host ('/' :: (joinSlash segs ++ tail)) = _
  simp only [parsePQF, ht, hd, hsplit, hrd]
  rw [if_pos (List.all_eq_true.mpr (joinSlash_pathOrSlash segs hall))]

lemma parse_serializeU (r : URLRec) (h : wfU r) :
    parseU (serializeU r) = some r := by
  obtain ⟨hs_ne, hs_low, hh_ne, hh_chars, hsegs_ne, hsegs, hq, hf⟩ := h
  have e : serializeU r =
      r.scheme ++ (':' :: '/' :: '/' ::
        (r.host ++ ('/' :: (joinSlash r.segs ++ qfData r.query r.fragment)))) := by
    simp [serializeU, qfData, List.append_assoc]
  rw [e]
  obtain ⟨ht1, hd1⟩ := takeWhile_dropWhile_app isLowerC r.scheme
    (':' :: '/' :: '/' :: (r.host ++ ('/' :: (joinSlash r.segs ++ qfData r.query r.fragment))))
    (List.all_eq_true.mp hs_low)
    (by intro c hc; simp at hc; subst hc; decide)
  obtain ⟨ht2, hd2⟩ := takeWhile_dropWhile_app notHostEnd r.host
    ('/' :: (joinSlash r.segs ++ qfData r.query r.fragment))
    (fun c hc => hostChar_notHostEnd (List.all_eq_true.mp hh_chars c hc))
    (by intro c hc; simp at hc; subst hc; decide)
  simp only [parseU, ht1, hd1, ht2, hd2]
  rw [if_neg hs_ne, if_neg hh_ne, if_pos hh_chars]
  rw [parsePQF_round r.scheme r.host r.segs (qfData r.query r.fragment) hsegs_ne hsegs ?_]
  · rw [parseQF_round r.scheme r.host r.segs r.query r.fragment hq hf]
  · intro c hc
    cases hqc : r.query with
    | some x =>
      simp only [qfData, hqc, List.cons_append, List.head?_cons] at hc
      cases hc; decide
    | none =>
      cases hfc : r.fragment with
      | some x =>
        simp only [qfData, hqc, hfc, List.nil_append, List.head?_cons] at hc
        cases hc; decide
      | none => simp [qfData, hqc, hfc] at hc

lemma parseQF_shape (scheme host : List Char) (segs : List (List Char))
    (rest : List Char) (r : URLRec) (h : parseQF scheme host segs rest = some r) :
    r.scheme = scheme ∧ r.host = host ∧ r.segs = segs ∧
    (∀ q, r.query = some q → q.all isQueryChar = true) ∧
    (∀ f, r.fragment = some f → f.all isFragChar = true) := by
  unfold parseQF at h
  split at h
  · cases h
    refine ⟨rfl, rfl, rfl, ?_, ?_⟩ <;> intro x hx <;> cases hx
  · rename_i q
    dsimp only at h
    split at h
    · rename_i hq
      split at h
      · cases h
        refine ⟨rfl, rfl, rfl, ?_, ?_⟩
        · intro x hx; cases hx; exact hq
        · intro x hx; cases hx
      · rename_i f
        split at h
        · rename_i hf
          cases h
          refine ⟨rfl, rfl, rfl, ?_, ?_⟩
          · intro x hx; cases hx; exact hq
          · intro x hx; cases hx; exact hf
        · cases h
      · cases h
    · cases h
  · rename_i f
    split at h
    · rename_i hf
      cases h
      refine ⟨rfl, rfl, rfl, ?_, ?_⟩
      · intro x hx; cases hx
      · intro x hx; cases hx; exact hf
    · cases h
  · cases h

lemma parsePQF_shape (scheme host : List Char) (r3 : List Char) (r : URLRec)
    (h : parsePQF scheme host r3 = some r) :
    r.scheme = scheme ∧ r.host = host ∧ r.segs ≠ [] ∧
    (∀ s ∈ r.segs, s ≠ dotSeg ∧ s ≠ dotDotSeg ∧ s.all isPathChar = true) ∧
    (∀ q, r.query = some q → q.all isQueryChar = true) ∧
    (∀ f, r.fragment = some f → f.all isFragChar = true) := by
  unfold parsePQF at h
  split at h
  · rename_i p
    dsimp only at h
    split at h
    · rename_i hall
      obtain ⟨h1, h2, h3, h4, h5⟩ := parseQF_shape _ _ _ _ _ h
      refine ⟨h1, h2, ?_, ?_, h4, h5⟩
      · rw [h3]
        exact removeDots_ne_nil _ (splitOnSlash_ne_nil _)
      · intro s hs
        rw [h3] at hs
        have hnd := removeDots_noDot _ s hs
        rcases removeDots_mem _ s hs with hmem | hmem
        · refine ⟨hnd.1, hnd.2, List.all_eq_true.mpr ?_⟩
          intro c hc
          have hcc := splitOnSlash_chars _ s hmem c hc
          have hps : isPathOrSlash c = true :=
            List.all_eq_true.mp hall c hcc.1
          rcases pathOrSlash_cases hps with hp | hp
          · exact hp
          · exact absurd hp hcc.2
        · subst hmem
          exact ⟨hnd.1, hnd.2, by decide⟩
    · cases h
  · obtain ⟨h1, h2, h3, h4, h5⟩ := parseQF_shape _ _ _ _ _ h
    refine ⟨h1, h2, ?_, ?_, h4, h5⟩
    · rw [h3]; simp
    · intro s hs
      rw [h3] at hs
      simp only [List.mem_singleton] at hs
      subst hs
      exact ⟨by decide, by decide, by decide⟩

lemma parseU_wf (cs : List Char) (r : URLRec) (h : parseU cs = some r) : wfU r := by
  unfold parseU at h
  split at h
  · rename_i r2
    dsimp only at h
    split at h
    · cases h
    · rename_i hsch
      split at h
      · cases h
      · rename_i hhost_ne
        split at h
        · rename_i hhost_chars
          obtain ⟨h1, h2, h3, h4, h5, h6⟩ := parsePQF_shape _ _ _ _ h
          refine ⟨?_, ?_, ?_, ?_, h3, h4, h5, h6⟩
          · rw [h1]; exact hsch
          · rw [h1]
            exact List.all_eq_true.mpr (fun c hc => List.mem_takeWhile_imp hc)
          · rw [h2]; exact hhost_ne
          · rw [h2]; exact hhost_chars
        · cases h
  · cases h

lemma joinSlash_concat (init : List (List Char)) (s : List Char) (h : init ≠ []) :
    joinSlash (init ++ [s]) = joinSlash init ++ '/' :: s := by
  induction init with
  | nil => exact absurd rfl h
  | cons x rest ih =>
    cases rest with
    | nil => rfl
    | cons y rest2 =>
      show joinSlash (x :: ((y :: rest2) ++ [s])) = (x ++ '/' :: joinSlash (y :: rest2)) ++ '/' :: s
      have e1 : joinSlash (x :: ((y :: rest2) ++ [s])) =
          x ++ '/' :: joinSlash ((y :: rest2) ++ [s]) := rfl
      rw [e1, ih (by simp)]
      simp

lemma endsSlash_of_concat (A : List Char) :
    endsSlash (String.mk (A ++ ['/'])) = true := by
  simp only [endsSlash, List.reverse_append]
  rfl

lemma endsSlash_false_of_getLast (p : String) (d : Char) (hd : p.data.getLast? = some d)
    (hne : d ≠ '/') : endsSlash p = false := by
  have hrev : p.data.reverse.head? = some d := by rw [List.head?_reverse]; exact hd
  cases hr : p.data.reverse with
  | nil => rw [hr] at hrev; cases hrev
  | cons e t =>
    rw [hr] at hrev
    have he : e = d := by cases hrev; rfl
    subst he
    unfold endsSlash
    rw [hr]
    split
    · rename_i heq
      cases heq
      exact absurd rfl hne
    · rfl

lemma wf_fragNone (r : URLRec) (h : wfU r) : wfU { r with fragment := none } := by
  obtain ⟨h1, h2, h3, h4, h5, h6, h7, h8⟩ := h
  exact ⟨h1, h2, h3, h4, h5, h6, h7, fun f hf => by cases hf⟩

lemma normSegs_wf_parts (segs : List (List Char)) (hne : segs ≠ [])
    (hsegs : ∀ s ∈ segs, s ≠ dotSeg ∧ s ≠ dotDotSeg ∧ s.all isPathChar = true) :
    normSegs segs ≠ [] ∧
    (∀ s ∈ normSegs segs, s ≠ dotSeg ∧ s ≠ dotDotSeg ∧ s.all isPathChar = true) := by
  unfold normSegs
  split
  · rename_i hcond
    rcases List.eq_nil_or_concat segs with h | ⟨init, last, h⟩
    · exact absurd h hne
    · rw [List.concat_eq_append] at h
      subst h
      have hlast : last = [] := by
        have := List.getLast?_concat (a := last) init
        rw [hcond.2] at this
        exact (Option.some.injEq _ _ ▸ this.symm)
      subst hlast
      have hinit : init ≠ [] := by
        intro h0
        subst h0
        exact hcond.1 rfl
      rw [List.dropLast_concat]
      refine ⟨hinit, fun s hs => hsegs s (by simp [hs])⟩
  · exact ⟨hne, hsegs⟩

lemma wf_normRecOf (r : URLRec) (h : wfU r) : wfU (normRecOf r) := by
  obtain ⟨h1, h2, h3, h4, h5, h6, h7, h8⟩ := h
  obtain ⟨hn1, hn2⟩ := normSegs_wf_parts r.segs h5 h6
  exact ⟨h1, h2, h3, h4, hn1, hn2, h7, fun f hf => by cases hf⟩

lemma norm_step (r1 : URLRec) (h : wfU r1) :
    (if pathnameStr r1 ≠ "/" ∧ endsSlash (pathnameStr r1) = true
     then { r1 with segs := parsePathSegs (pathnameStr r1).data.dropLast }
     else r1) = { r1 with segs := normSegs r1.segs } := by
  obtain ⟨_, _, _, _, hsegs_ne, hsegs, _, _⟩ := h
  rcases List.eq_nil_or_concat r1.segs with hnil | ⟨init, last, hcat⟩
  · exact absurd hnil hsegs_ne
  rw [List.concat_eq_append] at hcat
  cases last with
  | nil =>
    by_cases hinit : init = []
    · -- path is exactly "/"
      subst hinit
      simp only [List.nil_append] at hcat
      have hp : pathnameStr r1 = "/" := by
        unfold pathnameStr
        rw [hcat]
        rfl
      rw [if_neg (by simp [hp])]
      have : normSegs r1.segs = r1.segs := by
        unfold normSegs
        rw [hcat]
        simp
      rw [this]
    · -- drop the trailing empty segment
      have hjoin : joinSlash r1.segs = joinSlash init ++ ['/'] := by
        rw [hcat, joinSlash_concat init [] hinit]
      have hpdata : (pathnameStr r1).data = ('/' :: joinSlash init) ++ ['/'] := by
        unfold pathnameStr
        rw [hjoin]
        rfl
      have hends : endsSlash (pathnameStr r1) = true := by
        have : pathnameStr r1 = String.mk (('/' :: joinSlash init) ++ ['/']) := by
          unfold pathnameStr
          rw [hjoin]
          rfl
        rw [this]
        exact endsSlash_of_concat _
      have hne_root : pathnameStr r1 ≠ "/" := by
        intro h0
        have := congrArg String.data h0
        rw [hpdata] at this
        have hlen := congrArg List.length this
        simp at hlen
      rw [if_pos ⟨hne_root, hends⟩]
      have hdrop : (pathnameStr r1).data.dropLast = '/' :: joinSlash init := by
        rw [hpdata, List.dropLast_concat]
      have hsegs_init : parsePathSegs ('/' :: joinSlash init) = init := by
        unfold parsePathSegs
        have hch : ∀ t ∈ init, ∀ c ∈ t, c ≠ '/' := by
          intro t ht c hc
          have := hsegs t (by rw [hcat]; simp [ht])
          exact pathChar_ne_slash (List.all_eq_true.mp this.2.2 c hc)
        rw [show (match '/' :: joinSlash init with
              | '/' :: rest => rest
              | cs => cs) = joinSlash init from rfl]
        rw [splitOnSlash_joinSlash init hinit hch]
        exact removeDots_id init (fun s hs => ⟨(hsegs s (by rw [hcat]; simp [hs])).1,
          (hsegs s (by rw [hcat]; simp [hs])).2.1⟩)
      have hns : normSegs r1.segs = init := by
        unfold normSegs
        rw [hcat]
        rw [if_pos ?_, List.dropLast_concat]
        constructor
        · intro h0
          have : init = [] := by
            have hlen := congrArg List.length h0
            simpa using hlen
          exact hinit this
        · exact List.getLast?_concat init
      rw [hdrop, hsegs_init, hns]
  | cons c cs =>
    -- last segment nonempty: no trailing slash
    have hlastchar : ∃ d, (c :: cs).getLast? = some d ∧ d ∈ c :: cs := by
      refine ⟨(c :: cs).getLast (by simp), List.getLast?_eq_getLast _ _, ?_⟩
      exact List.getLast_mem _
    obtain ⟨d, hd, hdm⟩ := hlastchar
    have hdpath : isPathChar d = true := by
      have := hsegs (c :: cs) (by rw [hcat]; simp)
      exact List.all_eq_true.mp this.2.2 d hdm
    have hplast : (pathnameStr r1).data.getLast? = some d := by
      unfold pathnameStr
      show ('/' :: joinSlash r1.segs).getLast? = some d
      rw [hcat]
      by_cases hinit : init = []
      · subst hinit
        simp only [List.nil_append]
        show ('/' :: joinSlash [c :: cs]).getLast? = some d
        show ('/' :: (c :: cs)).getLast? = some d
        rw [show ('/' :: (c :: cs)) = ['/'] ++ (c :: cs) from rfl, List.getLast?_append, hd]
        rfl
      · rw [joinSlash_concat init (c :: cs) hinit]
        rw [show ('/' :: (joinSlash init ++ '/' :: (c :: cs))) =
              ('/' :: joinSlash init ++ ['/']) ++ (c :: cs) by simp, List.getLast?_append, hd]
        rfl
    have hends : endsSlash (pathnameStr r1) = false :=
      endsSlash_false_of_getLast _ d hplast (pathChar_ne_slash hdpath)
    rw [if_neg (by simp [hends])]
    have : normSegs r1.segs = r1.segs := by
      unfold normSegs
      rw [hcat]
      rw [if_neg ?_]
      intro hcon
      rw [List.getLast?_concat] at hcon
      cases hcon.2
    rw [this]

lemma normalizeUrl_spec (raw : String) (r : URLRec) (h : parseU raw.data = some r) :
    normalizeUrl raw = some (String.mk (serializeU (normRecOf r))) := by
  have hwf := parseU_wf _ _ h
  unfold normalizeUrl
  rw [h]
  have hstep := norm_step { r with fragment := none } (wf_fragNone r hwf)
  simp only at hstep ⊢
  rw [hstep]
  rfl

lemma normalizeUrl_serialize (r : URLRec) (h : wfU r) :
    normalizeUrl (String.mk (serializeU r)) =
      some (String.mk (serializeU (normRecOf r))) :=
  normalizeUrl_spec _ r
    (by rw [show (String.mk (serializeU r)).data = serializeU r from rfl]
        exact parse_serializeU r h)

lemma endsSlashSlash_of_concat (A : List Char) :
    endsSlashSlash (String.mk (A ++ ['/', '/'])) = true := by
  simp only [endsSlashSlash, List.reverse_append]
  rfl

lemma normSegs_idem (r : URLRec) (hwf : wfU r)
    (hyp : endsSlashSlash (pathnameStr r) = false ∨ pathnameStr r = "//") :
    normSegs (normSegs r.segs) = normSegs r.segs := by
  obtain ⟨_, _, _, _, hsegs_ne, hsegs, _, _⟩ := hwf
  by_cases hcond : r.segs ≠ [[]] ∧ r.segs.getLast? = some []
  · have hfirst : normSegs r.segs = r.segs.dropLast := by
      unfold normSegs
      rw [if_pos hcond]
    rcases List.eq_nil_or_concat r.segs with hnil | ⟨init, last, hcat⟩
    · exact absurd hnil hsegs_ne
    rw [List.concat_eq_append] at hcat
    have hlast : last = [] := by
      have h1 := List.getLast?_concat (a := last) init
      rw [hcat, h1] at hcond
      exact Option.some.inj hcond.2
    subst hlast
    rw [hfirst, hcat, List.dropLast_concat]
    unfold normSegs
    rw [if_neg ?_]
    intro hcon
    -- init itself ends in an empty segment and is not [[""]]: the path ends in "//"
    rcases List.eq_nil_or_concat init with hnil2 | ⟨init2, last2, hcat2⟩
    · subst hnil2
      cases hcon.2
    rw [List.concat_eq_append] at hcat2
    have hlast2 : last2 = [] := by
      have h1 := List.getLast?_concat (a := last2) init2
      rw [hcat2, h1] at hcon
      exact Option.some.inj hcon.2
    subst hlast2
    have hinit2 : init2 ≠ [] := by
      intro h0
      subst h0
      simp only [List.nil_append] at hcat2
      subst hcat2
      exact hcon.1 rfl
    have hpdata : (pathnameStr r).data = ('/' :: joinSlash init2) ++ ['/', '/'] := by
      unfold pathnameStr
      rw [hcat, hcat2]
      rw [joinSlash_concat (init2 ++ [[]]) [] (by simp), joinSlash_concat init2 [] hinit2]
      simp
    rcases hyp with hyp | hyp
    · have : endsSlashSlash (pathnameStr r) = true := by
        have he : pathnameStr r = String.mk (('/' :: joinSlash init2) ++ ['/', '/']) := by
          unfold pathnameStr
          unfold pathnameStr at hpdata
          exact congrArg String.mk hpdata
        rw [he]
        exact endsSlashSlash_of_concat _
      rw [this] at hyp
      cases hyp
    · have := congrArg String.data hyp
      rw [hpdata] at this
      have hlen := congrArg List.length this
      simp at hlen
  · have : normSegs r.segs = r.segs := by
      unfold normSegs
      rw [if_neg hcond]
    rw [this]
    unfold normSegs
    rw [if_neg hcond]

lemma normRecOf_idem (r : URLRec) (hwf : wfU r)
    (hyp : endsSlashSlash (pathnameStr r) = false ∨ pathnameStr r = "//") :
    normRecOf (normRecOf r) = normRecOf r := by
  have hseq := normSegs_idem r hwf hyp
  unfold normRecOf
  simp only
  rw [show normSegs r.segs = (normRecOf r).segs from rfl] at hseq
  simp [normRecOf] at hseq ⊢
  exact hseq

lemma prefAt_sound : ∀ (pat l : List Char), prefAt pat l = true → ∃ t, l = pat ++ t
  | [], l, _ => ⟨l, rfl⟩
  | p :: ps, [], h => by cases h
  | p :: ps, c :: cs, h => by
    simp only [prefAt, Bool.and_eq_true, beq_iff_eq] at h
    obtain ⟨t, ht⟩ := prefAt_sound ps cs h.2
    exact ⟨t, by rw [h.1, ht]; rfl⟩

lemma seg_split (stop : Char → Bool) :
    ∀ (a b t u : List Char) (x y : Char),
      (∀ c ∈ a, stop c = false) → (∀ c ∈ b, stop c = false) →
      stop x = true → stop y = true →
      a ++ x :: t = b ++ y :: u → a = b ∧ x = y ∧ t = u
  | [], [], t, u, x, y, _, _, _, _, h => by
    simp only [List.nil_append] at h
    injection h with h1 h2
    exact ⟨rfl, h1, h2⟩
  | [], e :: b, t, u, x, y, _, hb, hx, _, h => by
    simp only [List.nil_append, List.cons_append] at h
    injection h with h1 _
    subst h1
    rw [hb x (by simp)] at hx
    cases hx
  | d :: a, [], t, u, x, y, ha, _, _, hy, h => by
    simp only [List.cons_append, List.nil_append] at h
    injection h with h1 _
    subst h1
    rw [ha d (by simp)] at hy
    cases hy
  | d :: a, e :: b, t, u, x, y, ha, hb, hx, hy, h => by
    simp only [List.cons_append] at h
    injection h with hde htail
    obtain ⟨h1, h2, h3⟩ := seg_split stop a b t u x y
      (fun c hc => ha c (by simp [hc])) (fun c hc => hb c (by simp [hc])) hx hy htail
    exact ⟨by rw [hde, h1], h2, h3⟩

lemma host_from_prefix (r : URLRec) (hwf : wfU r)
    (h : prefAt "https://learn.microsoft.com/".data (serializeU r) = true) :
    r.scheme = "https".data ∧ r.host = "learn.microsoft.com".data := by
  obtain ⟨_, hs_low, _, hh_chars, _, _, _, _⟩ := hwf
  obtain ⟨t, ht⟩ := prefAt_sound _ _ h
  have e : serializeU r =
      r.scheme ++ ':' :: ('/' :: '/' ::
        (r.host ++ '/' :: (joinSlash r.segs ++ qfData r.query r.fragment))) := by
    simp [serializeU, qfData, List.append_assoc]
  have elit : "https://learn.microsoft.com/".data ++ t =
      "https".data ++ ':' :: ('/' :: '/' :: ("learn.microsoft.com".data ++ '/' :: t)) := by
    rfl
  rw [e, elit] at ht
  have hstep1 := seg_split (fun c => decide (c = ':'))
    r.scheme "https".data _ _ ':' ':'
    (fun c hc => by
      have := List.all_eq_true.mp hs_low c hc
      simp only [isLowerC, decide_eq_true_eq] at this
      simp only [decide_eq_false_iff_not]
      intro h0
      subst h0
      simp [cn] at this)
    (by intro c hc; fin_cases hc <;> decide)
    (by decide) (by decide) ht
  obtain ⟨hsch, _, htail⟩ := hstep1
  have htail2 : r.host ++ '/' :: (joinSlash r.segs ++ qfData r.query r.fragment) =
      "learn.microsoft.com".data ++ '/' :: t := by
    have h2 := htail
    simp only [List.cons.injEq, true_and] at h2
    exact h2
  have hstep2 := seg_split (fun c => decide (c = '/'))
    r.host "learn.microsoft.com".data _ _ '/' '/'
    (fun c hc => by
      have := hostChar_notHostEnd (List.all_eq_true.mp hh_chars c hc)
      simp only [notHostEnd, Bool.not_eq_true', decide_eq_false_iff_not] at this
      simp only [decide_eq_false_iff_not]
      intro h0
      subst h0
      simp [cn] at this)
    (by intro c hc; fin_cases hc <;> decide)
    (by decide) (by decide) htail2
  exact ⟨hsch, hstep2.1⟩

lemma removeDots_segs_ok (input : List (List Char))
    (h : ∀ x ∈ input, x.all isPathChar = true) :
    ∀ s ∈ removeDots input, s ≠ dotSeg ∧ s ≠ dotDotSeg ∧ s.all isPathChar = true := by
  intro s hs
  have hnd := removeDots_noDot input s hs
  rcases removeDots_mem input s hs with hm | hm
  · exact ⟨hnd.1, hnd.2, h s hm⟩
  · subst hm
    exact ⟨hnd.1, hnd.2, by decide⟩

lemma resolveU_wf (href : List Char) (base : URLRec) (hb : wfU base) (r : URLRec)
    (h : resolveU href base = some r) : wfU r := by
  obtain ⟨hb1, hb2, hb3, hb4, hb5, hb6, hb7, hb8⟩ := hb
  unfold resolveU at h
  dsimp only at h
  split at h
  · exact parseU_wf _ _ h
  · split at h
    · exact parseU_wf _ _ h
    · obtain ⟨h1, h2, h3, h4, h5, h6⟩ := parsePQF_shape _ _ _ _ h
      exact ⟨h1 ▸ hb1, h1 ▸ hb2, h2 ▸ hb3, h2 ▸ hb4, h3, h4, h5, h6⟩
    · obtain ⟨h1, h2, h3, h4, h5⟩ := parseQF_shape _ _ _ _ _ h
      refine ⟨h1 ▸ hb1, h1 ▸ hb2, h2 ▸ hb3, h2 ▸ hb4, ?_, ?_, h4, h5⟩
      · rw [h3]; exact hb5
      · rw [h3]; exact hb6
    · rename_i f
      split at h
      · rename_i hf
        cases h
        exact ⟨hb1, hb2, hb3, hb4, hb5, hb6, hb7, fun x hx => by cases hx; exact hf⟩
      · cases h
    · cases h
      exact ⟨hb1, hb2, hb3, hb4, hb5, hb6, hb7, fun x hx => by cases hx⟩
    · split at h
      · rename_i hall
        obtain ⟨h1, h2, h3, h4, h5⟩ := parseQF_shape _ _ _ _ _ h
        refine ⟨h1 ▸ hb1, h1 ▸ hb2, h2 ▸ hb3, h2 ▸ hb4, ?_, ?_, h4, h5⟩
        · rw [h3]
          exact removeDots_ne_nil _
            (List.append_ne_nil_of_right_ne_nil _ (splitOnSlash_ne_nil _))
        · rw [h3]
          refine removeDots_segs_ok _ ?_
          intro x hx
          rcases List.mem_append.mp hx with hx | hx
          · exact (hb6 x (List.mem_of_mem_dropLast hx)).2.2
          · refine List.all_eq_true.mpr ?_
            intro c hc
            have hcc := splitOnSlash_chars _ x hx c hc
            rcases pathOrSlash_cases (List.all_eq_true.mp hall c hcc.1) with hp | hp
            · exact hp
            · exact absurd hp hcc.2
      · cases h

lemma resolveStr_shape (href baseUrl abs : String)
    (h : resolveStr href baseUrl = some abs) :
    ∃ r, wfU r ∧ abs = String.mk (serializeU r) := by
  unfold resolveStr at h
  split at h
  · cases h
  · rename_i b hb
    obtain ⟨r, hr, habs⟩ := Option.map_eq_some'.mp h
    exact ⟨r, resolveU_wf _ _ (parseU_wf _ _ hb) _ hr, habs.symm⟩

lemma normalized_kept_host (abs : String)
    (hres : ∃ href baseUrl, resolveStr href baseUrl = some abs)
    (hpre : strStartsWith abs "https://learn.microsoft.com/" = true) :
    ∃ s, normalizeUrl abs = some s ∧ hostOf s = some "learn.microsoft.com" := by
  obtain ⟨href, baseUrl, hres⟩ := hres
  obtain ⟨r, hwf, habs⟩ := resolveStr_shape _ _ _ hres
  subst habs
  have hprefix : prefAt "https://learn.microsoft.com/".data (serializeU r) = true := hpre
  obtain ⟨hsch, hhost⟩ := host_from_prefix r hwf hprefix
  refine ⟨String.mk (serializeU (normRecOf r)), normalizeUrl_serialize r hwf, ?_⟩
  unfold hostOf
  rw [show (String.mk (serializeU (normRecOf r))).data = serializeU (normRecOf r) from rfl]
  rw [parse_serializeU _ (wf_normRecOf r hwf)]
  show some (String.mk (normRecOf r).host) = some "learn.microsoft.com"
  rw [show (normRecOf r).host = r.host from rfl, hhost]

lemma addLink_mem (links : List (Option String)) (v x : Option String)
    (h : x ∈ addLink links v) : x ∈ links ∨ x = v := by
  unfold addLink at h
  split at h
  · exact Or.inl h
  · rcases List.mem_append.mp h with h | h
    · exact Or.inl h
    · simp at h
      exact Or.inr h

lemma sidebarStep_mem (baseUrl : String) (acc : List (Option String)) (a : Anchor)
    (x : Option String) (h : x ∈ sidebarStep baseUrl acc a) :
    x ∈ acc ∨ ∃ href abs, resolveStr href baseUrl = some abs ∧
      strStartsWith abs "https://learn.microsoft.com/" = true ∧
      x = normalizeUrl abs := by
  unfold sidebarStep at h
  split at h
  · exact Or.inl h
  · rename_i href hhref
    split at h
    · exact Or.inl h
    · split at h
      · exact Or.inl h
      · split at h
        · exact Or.inl h
        · rename_i abs hres
          split at h
          · exact Or.inl h
          · split at h
            · exact Or.inl h
            · rename_i hpre _
              rcases addLink_mem _ _ _ h with h | h
              · exact Or.inl h
              · simp only [Bool.not_eq_false] at hpre
                exact Or.inr ⟨href, abs, hres, hpre, h⟩

lemma sidebar_foldl_mem (baseUrl : String) :
    ∀ (l : List Anchor) (acc : List (Option String)) (x : Option String),
      x ∈ List.foldl (sidebarStep baseUrl) acc l →
      x ∈ acc ∨ ∃ href abs, resolveStr href baseUrl = some abs ∧
        strStartsWith abs "https://learn.microsoft.com/" = true ∧
        x = normalizeUrl abs
  | [], _acc, x, h => Or.inl h
  | a :: l, acc, x, h => by
    rcases sidebar_foldl_mem baseUrl l (sidebarStep baseUrl acc a) x h with h2 | h2
    · exact sidebarStep_mem baseUrl acc a x h2
    · exact Or.inr h2

lemma addLink_nodup (links : List (Option String)) (v : Option String)
    (h : links.Nodup) : (addLink links v).Nodup := by
  unfold addLink
  split
  · exact h
  · rename_i hv
    simpa [List.nodup_append, h] using hv

lemma sidebarStep_nodup (baseUrl : String) (acc : List (Option String)) (a : Anchor)
    (h : acc.Nodup) : (sidebarStep baseUrl acc a).Nodup := by
  unfold sidebarStep
  split
  · exact h
  · split
    · exact h
    · split
      · exact h
      · split
        · exact h
        · split
          · exact h
          · split
            · exact h
            · exact addLink_nodup _ _ h

lemma sidebar_foldl_nodup (baseUrl : String) :
    ∀ (l : List Anchor) (acc : List (Option String)), acc.Nodup →
      (List.foldl (sidebarStep baseUrl) acc l).Nodup
  | [], _acc, h => h
  | a :: l, acc, h =>
    sidebar_foldl_nodup baseUrl l (sidebarStep baseUrl acc a)
      (sidebarStep_nodup baseUrl acc a h)

/-! ### Crawl-loop lemmas -/

lemma crawlRun_inv (env : CrawlEnv) (seedSet : List String) (P : CrawlState → Prop)
    (hstep : ∀ s, s.queue ≠ [] → P s → P (crawlStep env seedSet s)) :
    ∀ (fuel : Nat) (s : CrawlState), P s → P (crawlRun env seedSet fuel s)
  | 0, s, h => h
  | Nat.succ n, s, h => by
    unfold crawlRun
    split
    · exact h
    · rename_i hq
      exact crawlRun_inv env seedSet P hstep n _ (hstep s (by rw [hq]; simp) h)

lemma crawlRun_queue_nil (env : CrawlEnv) (seedSet : List String) (fuel : Nat)
    (s : CrawlState) (h : s.queue = []) : crawlRun env seedSet fuel s = s := by
  cases fuel with
  | zero => rfl
  | succ n =>
    unfold crawlRun
    rw [h]

lemma enqueueOne_keeps (s : CrawlState) (u : Option String) :
    (enqueueOne s u).visited = s.visited ∧ (enqueueOne s u).fetchLog = s.fetchLog ∧
    (enqueueOne s u).dequeueLog = s.dequeueLog ∧
    (enqueueOne s u).seedResults = s.seedResults ∧
    (enqueueOne s u).discoveredResults = s.discoveredResults ∧
    (enqueueOne s u).recordLog = s.recordLog ∧ (enqueueOne s u).pageCount = s.pageCount := by
  unfold enqueueOne
  split
  · exact ⟨rfl, rfl, rfl, rfl, rfl, rfl, rfl⟩
  · split
    · exact ⟨rfl, rfl, rfl, rfl, rfl, rfl, rfl⟩
    · exact ⟨rfl, rfl, rfl, rfl, rfl, rfl, rfl⟩

lemma enqueueLinks_keeps :
    ∀ (us : List (Option String)) (s : CrawlState),
      (enqueueLinks s us).visited = s.visited ∧
      (enqueueLinks s us).fetchLog = s.fetchLog ∧
      (enqueueLinks s us).dequeueLog = s.dequeueLog ∧
      (enqueueLinks s us).seedResults = s.seedResults ∧
      (enqueueLinks s us).discoveredResults = s.discoveredResults ∧
      (enqueueLinks s us).recordLog = s.recordLog ∧
      (enqueueLinks s us).pageCount = s.pageCount
  | [], s => ⟨rfl, rfl, rfl, rfl, rfl, rfl, rfl⟩
  | u :: us, s => by
    have h1 := enqueueOne_keeps s u
    have h2 := enqueueLinks_keeps us (enqueueOne s u)
    have he : enqueueLinks s (u :: us) = enqueueLinks (enqueueOne s u) us := rfl
    rw [he]
    exact ⟨h2.1.trans h1.1, h2.2.1.trans h1.2.1, h2.2.2.1.trans h1.2.2.1,
      h2.2.2.2.1.trans h1.2.2.2.1, h2.2.2.2.2.1.trans h1.2.2.2.2.1,
      h2.2.2.2.2.2.1.trans h1.2.2.2.2.2.1, h2.2.2.2.2.2.2.trans h1.2.2.2.2.2.2⟩

lemma addRecord_keeps (seedSet : List String) (s : CrawlState) (r : PageRecord) :
    (addRecord seedSet s r).visited = s.visited ∧
    (addRecord seedSet s r).queued = s.queued ∧
    (addRecord seedSet s r).queue = s.queue ∧
    (addRecord seedSet s r).fetchLog = s.fetchLog ∧
    (addRecord seedSet s r).dequeueLog = s.dequeueLog ∧
    (addRecord seedSet s r).enqueueLog = s.enqueueLog := by
  unfold addRecord
  split
  · exact ⟨rfl, rfl, rfl, rfl, rfl, rfl⟩
  · exact ⟨rfl, rfl, rfl, rfl, rfl, rfl⟩

lemma enqueueOne_queue_sub (s : CrawlState) (u : Option String) :
    ∀ x ∈ (enqueueOne s u).queue, x ∈ s.queue ∨ (x ≠ "" ∧ x ∉ s.queued) := by
  intro x hx
  unfold enqueueOne at hx
  split at hx
  · exact Or.inl hx
  · rename_i n heq
    split at hx
    · exact Or.inl hx
    · rename_i hguard
      push_neg at hguard
      rcases List.mem_append.mp hx with hx | hx
      · exact Or.inl hx
      · simp at hx
        subst hx
        exact Or.inr ⟨hguard.1, hguard.2.2⟩

lemma enqueueLinks_queue_sub :
    ∀ (us : List (Option String)) (s : CrawlState),
      ∀ x ∈ (enqueueLinks s us).queue, x ∈ s.queue ∨ x ≠ ""
  | [], _, x, hx => Or.inl hx
  | u :: us, s, x, hx => by
    have he : enqueueLinks s (u :: us) = enqueueLinks (enqueueOne s u) us := rfl
    rw [he] at hx
    rcases enqueueLinks_queue_sub us (enqueueOne s u) x hx with h | h
    · rcases enqueueOne_queue_sub s u x h with h2 | h2
      · exact Or.inl h2
      · exact Or.inr h2.1
    · exact Or.inr h

lemma enqueueOne_frontier (s : CrawlState) (u : Option String) (h : FrontierInv s) :
    FrontierInv (enqueueOne s u) := by
  obtain ⟨h1, h2, h3, h4, h5⟩ := h
  unfold enqueueOne
  split
  · exact ⟨h1, h2, h3, h4, h5⟩
  · rename_i n heq
    split
    · exact ⟨h1, h2, h3, h4, h5⟩
    · rename_i hguard
      push_neg at hguard
      have hnq : n ∉ s.queued := hguard.2.2
      refine ⟨?_, ?_, ?_, ?_, ?_⟩
      · refine List.Nodup.append h1 (by simp) ?_
        intro a ha hb
        simp at hb
        subst hb
        exact hnq (h3 a ha)
      · refine List.Nodup.append h2 (by simp) ?_
        intro a ha hb
        simp at hb
        subst hb
        exact hnq ha
      · intro x hx
        rcases List.mem_append.mp hx with hx | hx
        · exact List.mem_append.mpr (Or.inl (h3 x hx))
        · exact List.mem_append.mpr (Or.inr hx)
      · intro x hx
        exact List.mem_append.mpr (Or.inl (h4 x hx))
      · show s.enqueueLog ++ [n] = s.queued ++ [n]
        rw [h5]

lemma enqueueLinks_frontier :
    ∀ (us : List (Option String)) (s : CrawlState), FrontierInv s →
      FrontierInv (enqueueLinks s us)
  | [], _, h => h
  | u :: us, s, h =>
    enqueueLinks_frontier us (enqueueOne s u) (enqueueOne_frontier s u h)

lemma enqueueOne_visited_queued (s : CrawlState) (u : Option String) :
    s.visited = (enqueueOne s u).visited ∧
    ∀ x ∈ s.queued, x ∈ (enqueueOne s u).queued := by
  unfold enqueueOne
  split
  · exact ⟨rfl, fun x hx => hx⟩
  · split
    · exact ⟨rfl, fun x hx => hx⟩
    · exact ⟨rfl, fun x hx => List.mem_append.mpr (Or.inl hx)⟩

lemma crawlStep_base (env : CrawlEnv) (seedSet : List String) (s : CrawlState)
    (h : BaseInv s) : BaseInv (crawlStep env seedSet s) := by
  obtain ⟨hq, hfN, hfv, hdv⟩ := h
  unfold crawlStep
  split
  · exact ⟨hq, hfN, hfv, hdv⟩
  · rename_i current rest heq
    dsimp only
    split
    · rename_i hcond
      refine ⟨?_, hfN, hfv, ?_⟩
      · intro u hu
        exact hq u (heq ▸ List.mem_cons_of_mem _ hu)
      · intro u hu
        rcases List.mem_append.mp hu with hu | hu
        · exact hdv u hu
        · simp at hu
          subst hu
          rcases hcond with hcond | hcond
          · exact absurd hcond (hq u (heq ▸ List.mem_cons_self _ _))
          · exact hcond
    · rename_i hcond
      push_neg at hcond
      have hcur_q : current ∈ s.queue := heq ▸ List.mem_cons_self _ _
      have hqrest : ∀ u ∈ rest, u ≠ "" :=
        fun u hu => hq u (heq ▸ List.mem_cons_of_mem _ hu)
      have hbase2 : (∀ u ∈ rest, u ≠ "") ∧ (s.fetchLog ++ [current]).Nodup ∧
          (∀ u ∈ s.fetchLog ++ [current], u ∈ s.visited ++ [current]) ∧
          (∀ u ∈ s.dequeueLog ++ [current], u ∈ s.visited ++ [current]) := by
        refine ⟨hqrest, ?_, ?_, ?_⟩
        · refine List.Nodup.append hfN (by simp) ?_
          intro a ha hb
          simp at hb
          subst hb
          exact hcond.2 (hfv a ha)
        · intro u hu
          rcases List.mem_append.mp hu with hu | hu
          · exact List.mem_append.mpr (Or.inl (hfv u hu))
          · exact List.mem_append.mpr (Or.inr hu)
        · intro u hu
          rcases List.mem_append.mp hu with hu | hu
          · exact List.mem_append.mpr (Or.inl (hdv u hu))
          · exact List.mem_append.mpr (Or.inr hu)
      split
      · exact hbase2
      · exact hbase2
      · rename_i page hfetch
        have hk := enqueueLinks_keeps (extractSidebarUrls page current)
          (addRecord seedSet
            { s with queue := rest, dequeueLog := s.dequeueLog ++ [current],
                     visited := s.visited ++ [current], pageCount := s.pageCount + 1,
                     fetchLog := s.fetchLog ++ [current] }
            (recordOf page current env.tzOffsetMin))
        have ha := addRecord_keeps seedSet
          { s with queue := rest, dequeueLog := s.dequeueLog ++ [current],
                   visited := s.visited ++ [current], pageCount := s.pageCount + 1,
                   fetchLog := s.fetchLog ++ [current] }
          (recordOf page current env.tzOffsetMin)
        refine ⟨?_, ?_, ?_, ?_⟩
        · intro u hu
          rcases enqueueLinks_queue_sub _ _ u hu with hu | hu
          · rw [ha.2.2.1] at hu
            exact hqrest u hu
          · exact hu
        · rw [hk.2.1, ha.2.2.2.1]
          exact hbase2.2.1
        · intro u hu
          rw [hk.2.1, ha.2.2.2.1] at hu
          rw [hk.1, ha.1]
          exact hbase2.2.2.1 u hu
        · intro u hu
          rw [hk.2.2.1, ha.2.2.2.2.1] at hu
          rw [hk.1, ha.1]
          exact hbase2.2.2.2 u hu

lemma crawlStep_frontier (env : CrawlEnv) (seedSet : List String) (s : CrawlState)
    (h : FrontierInv s) : FrontierInv (crawlStep env seedSet s) := by
  obtain ⟨h1, h2, h3, h4, h5⟩ := h
  unfold crawlStep
  split
  · exact ⟨h1, h2, h3, h4, h5⟩
  · rename_i current rest heq
    dsimp only
    have h1r : rest.Nodup := by
      rw [heq] at h1
      exact h1.of_cons
    have h3r : ∀ u ∈ rest, u ∈ s.queued :=
      fun u hu => h3 u (heq ▸ List.mem_cons_of_mem _ hu)
    split
    · exact ⟨h1r, h2, h3r, h4, h5⟩
    · have hcur_queued : current ∈ s.queued := h3 current (heq ▸ List.mem_cons_self _ _)
      have hfront2 : FrontierInv
          { s with queue := rest, dequeueLog := s.dequeueLog ++ [current],
                   visited := s.visited ++ [current], pageCount := s.pageCount + 1,
                   fetchLog := s.fetchLog ++ [current] } := by
        refine ⟨h1r, h2, h3r, ?_, h5⟩
        intro u hu
        rcases List.mem_append.mp hu with hu | hu
        · exact h4 u hu
        · simp at hu
          subst hu
          exact hcur_queued
      split
      · exact hfront2
      · exact hfront2
      · rename_i page hfetch
        refine enqueueLinks_frontier _ _ ?_
        unfold addRecord
        split
        · exact hfront2
        · exact hfront2

lemma addRecord_class (seeds : List String) (s : CrawlState) (r : PageRecord)
    (h : ClassInv seeds s) : ClassInv seeds (addRecord seeds s r) := by
  obtain ⟨h1, h2⟩ := h
  unfold addRecord
  split
  · rename_i hmem
    have hm : r.URL ∈ seeds := by simpa using hmem
    constructor
    · show s.seedResults ++ [r] = (s.recordLog ++ [r]).filter _
      rw [List.filter_append, h1]
      simp [hm]
    · show s.discoveredResults = (s.recordLog ++ [r]).filter _
      rw [List.filter_append, h2]
      simp [hm]
  · rename_i hmem
    have hm : r.URL ∉ seeds := by simpa using hmem
    constructor
    · show s.seedResults = (s.recordLog ++ [r]).filter _
      rw [List.filter_append, h1]
      simp [hm]
    · show s.discoveredResults ++ [r] = (s.recordLog ++ [r]).filter _
      rw [List.filter_append, h2]
      simp [hm]

lemma enqueueLinks_class (seeds : List String) (us : List (Option String))
    (s : CrawlState) (h : ClassInv seeds s) : ClassInv seeds (enqueueLinks s us) := by
  have hk := enqueueLinks_keeps us s
  exact ⟨hk.2.2.2.1 ▸ hk.2.2.2.2.2.1 ▸ h.1, by
    rw [hk.2.2.2.2.1, hk.2.2.2.2.2.1]
    exact h.2⟩

lemma crawlStep_class (env : CrawlEnv) (seedSet : List String) (s : CrawlState)
    (h : ClassInv seedSet s) : ClassInv seedSet (crawlStep env seedSet s) := by
  obtain ⟨h1, h2⟩ := h
  unfold crawlStep
  split
  · exact ⟨h1, h2⟩
  · rename_i current rest heq
    dsimp only
    split
    · exact ⟨h1, h2⟩
    · split
      · exact ⟨h1, h2⟩
      · exact ⟨h1, h2⟩
      · rename_i page hfetch
        exact enqueueLinks_class seedSet _ _ (addRecord_class seedSet _ _ ⟨h1, h2⟩)

lemma crawlStep_fail (env : CrawlEnv) (seedSet : List String) (s : CrawlState)
    (current : String) (rest : List String) (hqe : s.queue = current :: rest)
    (hne : current ≠ "") (hnv : current ∉ s.visited)
    (hf : env.fetch current = FetchResult.networkError ∨
          ∃ k, env.fetch current = FetchResult.httpError k) :
    crawlStep env seedSet s =
      { s with queue := rest, dequeueLog := s.dequeueLog ++ [current],
               visited := s.visited ++ [current], pageCount := s.pageCount + 1,
               fetchLog := s.fetchLog ++ [current] } := by
  unfold crawlStep
  rw [hqe]
  dsimp only
  rw [if_neg (by push_neg; exact ⟨hne, hnv⟩)]
  rcases hf with hf | ⟨k, hf⟩ <;> rw [hf]

lemma crawlStep_visited_mono (env : CrawlEnv) (seedSet : List String) (s : CrawlState)
    (u : String) (h : u ∈ s.visited) : u ∈ (crawlStep env seedSet s).visited := by
  unfold crawlStep
  split
  · exact h
  · rename_i current rest heq
    dsimp only
    split
    · exact h
    · have h2 : u ∈ s.visited ++ [current] := List.mem_append.mpr (Or.inl h)
      split
      · exact h2
      · exact h2
      · rename_i page hfetch
        have hk := enqueueLinks_keeps (extractSidebarUrls page current)
          (addRecord seedSet
            { s with queue := rest, dequeueLog := s.dequeueLog ++ [current],
                     visited := s.visited ++ [current], pageCount := s.pageCount + 1,
                     fetchLog := s.fetchLog ++ [current] }
            (recordOf page current env.tzOffsetMin))
        have ha := addRecord_keeps seedSet
          { s with queue := rest, dequeueLog := s.dequeueLog ++ [current],
                   visited := s.visited ++ [current], pageCount := s.pageCount + 1,
                   fetchLog := s.fetchLog ++ [current] }
          (recordOf page current env.tzOffsetMin)
        rw [hk.1, ha.1]
        exact h2

lemma crawlStep_count (env : CrawlEnv) (seedSet : List String) (s : CrawlState)
    (u : String) (h : u ∈ s.visited) :
    (crawlStep env seedSet s).fetchLog.count u = s.fetchLog.count u := by
  unfold crawlStep
  split
  · rfl
  · rename_i current rest heq
    dsimp only
    split
    · rfl
    · rename_i hcond
      push_neg at hcond
      have hnecur : current ≠ u := fun hcu => hcond.2 (hcu ▸ h)
      have hcount : (s.fetchLog ++ [current]).count u = s.fetchLog.count u := by
        rw [List.count_append]
        simp [List.count_cons, hnecur]
      split
      · exact hcount
      · exact hcount
      · rename_i page hfetch
        have hk := enqueueLinks_keeps (extractSidebarUrls page current)
          (addRecord seedSet
            { s with queue := rest, dequeueLog := s.dequeueLog ++ [current],
                     visited := s.visited ++ [current], pageCount := s.pageCount + 1,
                     fetchLog := s.fetchLog ++ [current] }
            (recordOf page current env.tzOffsetMin))
        have ha := addRecord_keeps seedSet
          { s with queue := rest, dequeueLog := s.dequeueLog ++ [current],
                   visited := s.visited ++ [current], pageCount := s.pageCount + 1,
                   fetchLog := s.fetchLog ++ [current] }
          (recordOf page current env.tzOffsetMin)
        rw [hk.2.1, ha.2.2.2.1]
        exact hcount

lemma crawlRun_count (env : CrawlEnv) (seedSet : List String) :
    ∀ (fuel : Nat) (s : CrawlState) (u : String), u ∈ s.visited →
      (crawlRun env seedSet fuel s).fetchLog.count u = s.fetchLog.count u ∧
      u ∈ (crawlRun env seedSet fuel s).visited
  | 0, s, u, h => ⟨rfl, h⟩
  | Nat.succ n, s, u, h => by
    unfold crawlRun
    split
    · exact ⟨rfl, h⟩
    · have hm := crawlStep_visited_mono env seedSet s u h
      have hc := crawlStep_count env seedSet s u h
      have ih := crawlRun_count env seedSet n (crawlStep env seedSet s) u hm
      exact ⟨ih.1.trans hc, ih.2⟩

/-! ### Initial-state lemmas -/

lemma seedUrlsOf_ne_empty (content : String) : ∀ u ∈ seedUrlsOf content, u ≠ "" := by
  intro u hu
  unfold seedUrlsOf at hu
  obtain ⟨o, _, ho⟩ := List.mem_filterMap.mp hu
  cases o with
  | none => cases ho
  | some str =>
    dsimp only at ho
    split at ho
    · cases ho
    · rename_i hne
      cases ho
      exact hne

lemma dedupKeepFirst_of_nodup : ∀ l : List String, l.Nodup → dedupKeepFirst l = l
  | [], _ => rfl
  | s :: rest, h => by
    have hrest := dedupKeepFirst_of_nodup rest (List.Nodup.of_cons h)
    show s :: (dedupKeepFirst rest).filter (fun t => t ≠ s) = s :: rest
    rw [hrest]
    congr 1
    refine List.filter_eq_self.mpr ?_
    intro t ht
    have : s ∉ rest := (List.nodup_cons.mp h).1
    simp only [ne_eq, decide_eq_true_eq]
    intro hts
    exact this (hts ▸ ht)

lemma initState_base (content : String) : BaseInv (initState content) :=
  ⟨seedUrlsOf_ne_empty content, List.nodup_nil, by simp [initState], by simp [initState]⟩

lemma initState_frontier (content : String) (h : (seedUrlsOf content).Nodup) :
    FrontierInv (initState content) := by
  refine ⟨h, ?_, ?_, ?_, ?_⟩
  · show (dedupKeepFirst (seedUrlsOf content)).Nodup
    rw [dedupKeepFirst_of_nodup _ h]
    exact h
  · show ∀ u ∈ seedUrlsOf content, u ∈ dedupKeepFirst (seedUrlsOf content)
    rw [dedupKeepFirst_of_nodup _ h]
    exact fun u hu => hu
  · intro u hu
    simp [initState] at hu
  · show seedUrlsOf content = dedupKeepFirst (seedUrlsOf content)
    rw [dedupKeepFirst_of_nodup _ h]

lemma initState_class (content : String) :
    ClassInv (seedUrlsOf content) (initState content) := ⟨rfl, rfl⟩

lemma pathname_normRec (r : URLRec) (h : wfU r) :
    pathnameStr (normRecOf r) =
      (if pathnameStr r ≠ "/" ∧ endsSlash (pathnameStr r) = true
       then String.mk (pathnameStr r).data.dropLast else pathnameStr r) := by
  obtain ⟨_, _, _, _, hsegs_ne, hsegs, _, _⟩ := h
  have hpn : pathnameStr (normRecOf r) = String.mk ('/' :: joinSlash (normSegs r.segs)) := rfl
  rcases List.eq_nil_or_concat r.segs with hnil | ⟨init, last, hcat⟩
  · exact absurd hnil hsegs_ne
  rw [List.concat_eq_append] at hcat
  cases last with
  | nil =>
    by_cases hinit : init = []
    · subst hinit
      simp only [List.nil_append] at hcat
      have hp : pathnameStr r = "/" := by
        unfold pathnameStr
        rw [hcat]
        rfl
      rw [if_neg (by simp [hp])]
      rw [hpn]
      have : normSegs r.segs = r.segs := by
        unfold normSegs
        rw [hcat]
        simp
      rw [this]
      rfl
    · have hjoin : joinSlash r.segs = joinSlash init ++ ['/'] := by
        rw [hcat, joinSlash_concat init [] hinit]
      have hpdata : (pathnameStr r).data = ('/' :: joinSlash init) ++ ['/'] := by
        unfold pathnameStr
        rw [hjoin]
        rfl
      have hends : endsSlash (pathnameStr r) = true := by
        have he : pathnameStr r = String.mk (('/' :: joinSlash init) ++ ['/']) := by
          unfold pathnameStr
          rw [hjoin]
          rfl
        rw [he]
        exact endsSlash_of_concat _
      have hne_root : pathnameStr r ≠ "/" := by
        intro h0
        have := congrArg String.data h0
        rw [hpdata] at this
        have hlen := congrArg List.length this
        simp at hlen
      rw [if_pos ⟨hne_root, hends⟩]
      have hns : normSegs r.segs = init := by
        unfold normSegs
        rw [hcat]
        rw [if_pos ?_, List.dropLast_concat]
        constructor
        · intro h0
          have : init = [] := by
            have hlen := congrArg List.length h0
            simpa using hlen
          exact hinit this
        · exact List.getLast?_concat init
      rw [hpn, hns]
      rw [show (pathnameStr r).data.dropLast = '/' :: joinSlash init from
        by rw [hpdata, List.dropLast_concat]]
  | cons c cs =>
    have hlastchar : ∃ d, (c :: cs).getLast? = some d ∧ d ∈ c :: cs :=
      ⟨(c :: cs).getLast (by simp), List.getLast?_eq_getLast _ _, List.getLast_mem _⟩
    obtain ⟨d, hd, hdm⟩ := hlastchar
    have hdpath : isPathChar d = true := by
      have := hsegs (c :: cs) (by rw [hcat]; simp)
      exact List.all_eq_true.mp this.2.2 d hdm
    have hplast : (pathnameStr r).data.getLast? = some d := by
      unfold pathnameStr
      show ('/' :: joinSlash r.segs).getLast? = some d
      rw [hcat]
      by_cases hinit : init = []
      · subst hinit
        simp only [List.nil_append]
        show ('/' :: (c :: cs)).getLast? = some d
        rw [show ('/' :: (c :: cs)) = ['/'] ++ (c :: cs) from rfl, List.getLast?_append, hd]
        rfl
      · rw [joinSlash_concat init (c :: cs) hinit]
        rw [show ('/' :: (joinSlash init ++ '/' :: (c :: cs))) =
              ('/' :: joinSlash init ++ ['/']) ++ (c :: cs) by simp, List.getLast?_append, hd]
        rfl
    have hends : endsSlash (pathnameStr r) = false :=
      endsSlash_false_of_getLast _ d hplast (pathChar_ne_slash hdpath)
    rw [if_neg (by simp [hends])]
    rw [hpn]
    have : normSegs r.segs = r.segs := by
      unfold normSegs
      rw [hcat]
      rw [if_neg ?_]
      intro hcon
      rw [List.getLast?_concat] at hcon
      cases hcon.2
    rw [this]
    rfl

/-! ### Claim theorems -/

/-- C1: for every seed-file content, environment (hence every interleaving of
seeding and of discovered-link `enqueueIfNew` batches) and number of loop
iterations, the crawl loop initiates a fetch for each distinct canonical URL at
most once: the fetch log never repeats a URL. -/
theorem C1_fetch_at_most_once (content : String) (env : CrawlEnv) (fuel : Nat) :
    (scrapeState content env fuel).fetchLog.Nodup :=
  (crawlRun_inv env (seedUrlsOf content) BaseInv
    (fun s _ h => crawlStep_base env (seedUrlsOf content) s h)
    fuel (initState content) (initState_base content)).2.1

/-- C2, counterexample: `canonicalize` is not idempotent on every accepted URL.
On `https://x/a//` one application removes only one of the two trailing slashes,
so a second application changes the string again. -/
theorem C2_idempotent_cex :
    normalizeUrl "https://x/a//" = some "https://x/a/" ∧
    normalizeUrl "https://x/a/" = some "https://x/a" ∧
    Option.bind (normalizeUrl "https://x/a//") normalizeUrl ≠
      normalizeUrl "https://x/a//" := by
  refine ⟨by decide, by decide, by decide⟩

/-- C2, amended: `canonicalize(canonicalize(u)) = canonicalize(u)` holds for every
accepted URL whose parsed path does not end in a double slash (the path `//`
itself being fine); only paths with two or more trailing slashes after a
nonempty prefix are renormalized differently by a second application. -/
theorem C2_idempotent_amended (raw : String) (r : URLRec)
    (hparse : parseU raw.data = some r)
    (hpath : endsSlashSlash (pathnameStr r) = false ∨ pathnameStr r = "//") :
    Option.bind (normalizeUrl raw) normalizeUrl = normalizeUrl raw := by
  have hwf := parseU_wf _ _ hparse
  rw [normalizeUrl_spec raw r hparse]
  show normalizeUrl (String.mk (serializeU (normRecOf r))) = _
  rw [normalizeUrl_serialize (normRecOf r) (wf_normRecOf r hwf)]
  rw [normRecOf_idem r hwf hpath]

/-- Witness for C2's amended theorem at `https://x/b/`. -/
theorem C2_idempotent_amended_witness :
    parseU "https://x/b/".data =
      some ⟨['h', 't', 't', 'p', 's'], ['x'], [['b'], []], none, none⟩ ∧
    Option.bind (normalizeUrl "https://x/b/") normalizeUrl =
      normalizeUrl "https://x/b/" :=
  ⟨by decide,
   C2_idempotent_amended "https://x/b/"
     ⟨['h', 't', 't', 'p', 's'], ['x'], [['b'], []], none, none⟩
     (by decide) (Or.inl (by decide))⟩

/-- C3: on every accepted URL, `canonicalize` strips the fragment, leaves the
query untouched, and removes a single trailing `/` from the path unless the path
is exactly `/`; in particular `https://x/a/` normalizes to `https://x/a` and
`https://x/` stays `https://x/`; a malformed input yields the invalid marker
(`none`, the model of the caught exception) instead of throwing. -/
theorem C3_normalize_shape :
    (∀ (raw : String) (r : URLRec), parseU raw.data = some r →
      normalizeUrl raw = some (String.mk (serializeU (normRecOf r))) ∧
      (normRecOf r).fragment = none ∧
      (normRecOf r).query = r.query ∧
      pathnameStr (normRecOf r) =
        (if pathnameStr r ≠ "/" ∧ endsSlash (pathnameStr r) = true
         then String.mk (pathnameStr r).data.dropLast else pathnameStr r)) ∧
    normalizeUrl "https://x/a/" = some "https://x/a" ∧
    normalizeUrl "https://x/" = some "https://x/" ∧
    normalizeUrl "http//bad" = none := by
  refine ⟨?_, by decide, by decide, by decide⟩
  intro raw r hparse
  exact ⟨normalizeUrl_spec raw r hparse, rfl, rfl,
    pathname_normRec r (parseU_wf _ _ hparse)⟩

/-- Witness for C3 at `https://y/p/x/?q=1#sec`: fragment stripped, query kept,
one trailing slash removed. -/
theorem C3_normalize_shape_witness :
    parseU "https://y/p/x/?q=1#sec".data =
      some ⟨['h', 't', 't', 'p', 's'], ['y'], [['p'], ['x'], []],
            some ['q', '=', '1'], some ['s', 'e', 'c']⟩ ∧
    normalizeUrl "https://y/p/x/?q=1#sec" =
      some (String.mk (serializeU (normRecOf
        ⟨['h', 't', 't', 'p', 's'], ['y'], [['p'], ['x'], []],
         some ['q', '=', '1'], some ['s', 'e', 'c']⟩))) :=
  ⟨by decide,
   (C3_normalize_shape.1 "https://y/p/x/?q=1#sec"
     ⟨['h', 't', 't', 'p', 's'], ['y'], [['p'], ['x'], []],
      some ['q', '=', '1'], some ['s', 'e', 'c']⟩ (by decide)).1⟩

/-- C4, counterexample: with a seed list containing the same canonical URL twice,
the initial queue (a reachable frontier state) contains that URL twice — the
seed spread `queue = [...seedUrls]` does not deduplicate. -/
theorem C4_queue_dup_cex :
    (initState "https://x/a\nhttps://x/a").queue = ["https://x/a", "https://x/a"] ∧
    ¬ (initState "https://x/a\nhttps://x/a").queue.Nodup := by
  refine ⟨by decide, by decide⟩

/-- C4, amended: when the seed list is duplicate-free, every reachable frontier
state has each canonical URL at most once in the queue, no URL is ever enqueued
twice over the whole crawl, and every dequeued URL is in `visited`. -/
theorem C4_frontier_inv_amended (content : String) (env : CrawlEnv) (fuel : Nat)
    (h : (seedUrlsOf content).Nodup) :
    (scrapeState content env fuel).queue.Nodup ∧
    (scrapeState content env fuel).enqueueLog.Nodup ∧
    (∀ u ∈ (scrapeState content env fuel).dequeueLog,
      u ∈ (scrapeState content env fuel).visited) := by
  have hfront := crawlRun_inv env (seedUrlsOf content) FrontierInv
    (fun s _ hs => crawlStep_frontier env (seedUrlsOf content) s hs)
    fuel (initState content) (initState_frontier content h)
  have hbase := crawlRun_inv env (seedUrlsOf content) BaseInv
    (fun s _ hs => crawlStep_base env (seedUrlsOf content) s hs)
    fuel (initState content) (initState_base content)
  exact ⟨hfront.1, hfront.2.2.2.2 ▸ hfront.2.1, hbase.2.2.2⟩

/-- Witness for C4's amended theorem on a two-seed duplicate-free list. -/
theorem C4_frontier_inv_amended_witness :
    (seedUrlsOf "https://x/a\nhttps://x/b").Nodup ∧
    ((scrapeState "https://x/a\nhttps://x/b" envFail 3).queue.Nodup ∧
     (scrapeState "https://x/a\nhttps://x/b" envFail 3).enqueueLog.Nodup ∧
     (∀ u ∈ (scrapeState "https://x/a\nhttps://x/b" envFail 3).dequeueLog,
       u ∈ (scrapeState "https://x/a\nhttps://x/b" envFail 3).visited)) :=
  ⟨by decide, C4_frontier_inv_amended "https://x/a\nhttps://x/b" envFail 3 (by decide)⟩

/-- C5: every link the discoverer returns is a `some` whose host is exactly
`learn.microsoft.com`; anchors whose href is a pure fragment reference, and
anchors whose href fails to resolve against the page URL, contribute nothing. -/
theorem C5_domain_restriction :
    (∀ (p : Page) (baseUrl : String) (x : Option String),
        x ∈ extractSidebarUrls p baseUrl →
        ∃ s, x = some s ∧ hostOf s = some "learn.microsoft.com") ∧
    (∀ (baseUrl : String) (links : List (Option String)) (a : Anchor) (href : String),
        a.href = some href → strStartsWith href "#" = true →
        sidebarStep baseUrl links a = links) ∧
    (∀ (baseUrl : String) (links : List (Option String)) (a : Anchor) (href : String),
        a.href = some href → resolveStr href baseUrl = none →
        sidebarStep baseUrl links a = links) := by
  refine ⟨?_, ?_, ?_⟩
  · intro p baseUrl x hx
    rcases sidebar_foldl_mem baseUrl _ [] x hx with hmem | ⟨href, abs, hres, hpre, hxeq⟩
    · cases hmem
    · obtain ⟨s, hn, hh⟩ := normalized_kept_host abs ⟨href, baseUrl, hres⟩ hpre
      exact ⟨s, hxeq ▸ hn, hh⟩
  · intro baseUrl links a href ha hhash
    unfold sidebarStep
    rw [ha]
    dsimp only
    by_cases h0 : href = ""
    · rw [if_pos h0]
    · rw [if_neg h0, if_pos hhash]
  · intro baseUrl links a href ha hres
    unfold sidebarStep
    rw [ha]
    dsimp only
    by_cases h0 : href = ""
    · rw [if_pos h0]
    · rw [if_neg h0]
      by_cases hh : strStartsWith href "#" = true
      · rw [if_pos hh]
      · rw [if_neg hh, hres]

/-- Witness for C5 on a concrete page: the returned link's host is the allowed
domain. -/
theorem C5_domain_restriction_witness :
    (some "https://learn.microsoft.com/docs" : Option String) ∈
      extractSidebarUrls linkPage "https://learn.microsoft.com/home" ∧
    ∃ s, (some "https://learn.microsoft.com/docs" : Option String) = some s ∧
      hostOf s = some "learn.microsoft.com" :=
  ⟨by decide,
   C5_domain_restriction.1 linkPage "https://learn.microsoft.com/home"
     (some "https://learn.microsoft.com/docs") (by decide)⟩

/-- C6, counterexample: on the fixture page whose only timestamp signal is the
datetime attribute `2024-03-15T00:00:00Z`, a process in a timezone behind UTC
(here UTC-5, offset −300 minutes) renders the instant with
`toLocaleDateString("en-US")` as `3/14/2024` — March 14, not March 15. -/
theorem C6_datetime_tz_cex :
    extractLastUpdated c6Page (-300) = "3/14/2024" ∧
    ("3/14/2024" : String) ≠ "3/15/2024" := by
  refine ⟨by decide, by decide⟩

/-- C6, amended: the datetime fallback formats the attribute's UTC instant in the
process's local timezone as `M/D/YYYY`; in a process at UTC (offset 0, and
likewise for zones ahead of UTC such as +60) the fixture yields `3/15/2024`,
which unambiguously represents March 15, 2024 — in zones behind UTC it yields
the previous day. -/
theorem C6_datetime_utc_amended :
    extractLastUpdated c6Page 0 = "3/15/2024" ∧
    extractLastUpdated c6Page 60 = "3/15/2024" := by
  refine ⟨by decide, by decide⟩

/-- C7: the crawl's output is the seed-classified records (in traversal order)
followed by the discovered-classified records (in traversal order), both as
filters of the creation-ordered record log; `toCsv` emits the header
`Title,URL,LastUpdated` and one CRLF-joined row of three double-quoted fields
(embedded quotes doubled) per record; and a title containing a comma and an
embedded quote round-trips through a standard CSV parser. -/
theorem C7_csv_contract :
    (∀ (content : String) (env : CrawlEnv) (fuel : Nat),
        scrapeAll (some content) env fuel =
          Except.ok ((scrapeState content env fuel).recordLog.filter
              (fun r => (seedUrlsOf content).contains r.URL) ++
            (scrapeState content env fuel).recordLog.filter
              (fun r => !((seedUrlsOf content).contains r.URL)))) ∧
    (∀ rows : List PageRecord, toCsv rows = joinWith "\r\n"
        ("Title,URL,LastUpdated" :: rows.map (fun row =>
          joinWith "," [esc row.Title, esc row.URL, esc row.LastUpdated]))) ∧
    toCsv [⟨"a,\"b", "https://x/a", "UNKNOWN"⟩] =
      "Title,URL,LastUpdated\r\n\"a,\"\"b\",\"https://x/a\",\"UNKNOWN\"" ∧
    parseCsv (toCsv [⟨"a,\"b", "https://x/a", "UNKNOWN"⟩]) =
      some [["Title", "URL", "LastUpdated"], ["a,\"b", "https://x/a", "UNKNOWN"]] := by
  refine ⟨?_, ?_, by decide, by decide⟩
  · intro content env fuel
    have hclass := crawlRun_inv env (seedUrlsOf content) (ClassInv (seedUrlsOf content))
      (fun s _ hs => crawlStep_class env (seedUrlsOf content) s hs)
      fuel (initState content) (initState_class content)
    show Except.ok ((scrapeState content env fuel).seedResults ++
        (scrapeState content env fuel).discoveredResults) = _
    unfold scrapeState
    rw [hclass.1, hclass.2]
  · intro rows
    rfl

/-- C8: when the fetch of the URL at the head of the queue fails (network error
or non-success HTTP status), no record is created, no link is enqueued, the URL
is left marked visited, the rest of the state is untouched, the loop continues
with the remaining queue — and the URL is never fetched again in any
continuation of the crawl. -/
theorem C8_fetch_failure_nonfatal (env : CrawlEnv) (seedSet : List String)
    (s : CrawlState) (current : String) (rest : List String)
    (hqe : s.queue = current :: rest) (hne : current ≠ "")
    (hnv : current ∉ s.visited)
    (hf : env.fetch current = FetchResult.networkError ∨
          ∃ k, env.fetch current = FetchResult.httpError k) :
    (crawlStep env seedSet s).seedResults = s.seedResults ∧
    (crawlStep env seedSet s).discoveredResults = s.discoveredResults ∧
    (crawlStep env seedSet s).recordLog = s.recordLog ∧
    (crawlStep env seedSet s).queue = rest ∧
    (crawlStep env seedSet s).queued = s.queued ∧
    current ∈ (crawlStep env seedSet s).visited ∧
    (∀ (fuel : Nat) (t : CrawlState), current ∈ t.visited →
      (crawlRun env seedSet fuel t).fetchLog.count current = t.fetchLog.count current ∧
      current ∈ (crawlRun env seedSet fuel t).visited) := by
  rw [crawlStep_fail env seedSet s current rest hqe hne hnv hf]
  refine ⟨rfl, rfl, rfl, rfl, rfl, by simp, ?_⟩
  intro fuel t ht
  exact crawlRun_count env seedSet fuel t current ht

/-- Witness for C8 on a one-seed crawl whose only fetch fails. -/
theorem C8_fetch_failure_nonfatal_witness :
    (initState "https://x/a").queue = ["https://x/a"] ∧
    ("https://x/a" : String) ∉ (initState "https://x/a").visited ∧
    ((crawlStep envFail ["https://x/a"] (initState "https://x/a")).seedResults =
        (initState "https://x/a").seedResults ∧
     (crawlStep envFail ["https://x/a"] (initState "https://x/a")).discoveredResults =
        (initState "https://x/a").discoveredResults ∧
     (crawlStep envFail ["https://x/a"] (initState "https://x/a")).recordLog =
        (initState "https://x/a").recordLog ∧
     (crawlStep envFail ["https://x/a"] (initState "https://x/a")).queue = [] ∧
     (crawlStep envFail ["https://x/a"] (initState "https://x/a")).queued =
        (initState "https://x/a").queued ∧
     ("https://x/a" : String) ∈
        (crawlStep envFail ["https://x/a"] (initState "https://x/a")).visited ∧
     (∀ (fuel : Nat) (t : CrawlState), "https://x/a" ∈ t.visited →
        (crawlRun envFail ["https://x/a"] fuel t).fetchLog.count "https://x/a" =
          t.fetchLog.count "https://x/a" ∧
        "https://x/a" ∈ (crawlRun envFail ["https://x/a"] fuel t).visited)) :=
  ⟨by decide, by decide,
   C8_fetch_failure_nonfatal envFail ["https://x/a"] (initState "https://x/a")
     "https://x/a" [] (by decide) (by decide) (by decide) (Or.inl rfl)⟩

/-- C9, counterexample: the discoverer's returned collection is already
normalized inside `extractSidebarUrls`: for an anchor resolving to
`https://learn.microsoft.com/docs/`, the returned entry is the canonicalized
`https://learn.microsoft.com/docs`, not the resolved link itself. -/
theorem C9_normalized_inside_cex :
    extractSidebarUrls linkPage "https://learn.microsoft.com/home" =
      [some "https://learn.microsoft.com/docs"] ∧
    resolveStr "https://learn.microsoft.com/docs/" "https://learn.microsoft.com/home" =
      some "https://learn.microsoft.com/docs/" ∧
    (some "https://learn.microsoft.com/docs" : Option String) ≠
      some "https://learn.microsoft.com/docs/" := by
  refine ⟨by decide, by decide, by decide⟩

/-- C9, amended: the discoverer's returned collection is deduplicated (set
semantics) and each returned entry is `normalizeUrl` of the resolved absolute
link — canonical normalization already happens inside `extractSidebarUrls` (the
orchestrator then re-normalizes before frontier insertion). -/
theorem C9_dedup_normalized_amended :
    (∀ (p : Page) (baseUrl : String), (extractSidebarUrls p baseUrl).Nodup) ∧
    (∀ (p : Page) (baseUrl : String) (x : Option String),
        x ∈ extractSidebarUrls p baseUrl → ∃ abs, x = normalizeUrl abs) := by
  refine ⟨?_, ?_⟩
  · intro p baseUrl
    exact sidebar_foldl_nodup baseUrl _ [] List.nodup_nil
  · intro p baseUrl x hx
    rcases sidebar_foldl_mem baseUrl _ [] x hx with hmem | ⟨href, abs, _, _, hxeq⟩
    · cases hmem
    · exact ⟨abs, hxeq⟩

/-- Witness for C9's amended theorem on the concrete link page. -/
theorem C9_dedup_normalized_amended_witness :
    (some "https://learn.microsoft.com/docs" : Option String) ∈
      extractSidebarUrls linkPage "https://learn.microsoft.com/home" ∧
    ∃ abs, (some "https://learn.microsoft.com/docs" : Option String) =
      normalizeUrl abs :=
  ⟨by decide,
   C9_dedup_normalized_amended.2 linkPage "https://learn.microsoft.com/home"
     (some "https://learn.microsoft.com/docs") (by decide)⟩

/-- C10: a missing seed file aborts the crawl with the descriptive error before
any fetch; a seed file that yields no valid URLs is not fatal — the crawl does
zero fetches, terminates immediately for any fuel, and returns an empty record
list, so the caller gets a header-only CSV. -/
theorem C10_empty_seed_file :
    (∀ (env : CrawlEnv) (fuel : Nat),
        scrapeAll none env fuel =
          Except.error "urls.txt not found. Place it next to server.js.") ∧
    (∀ (content : String) (env : CrawlEnv) (fuel : Nat), seedUrlsOf content = [] →
        scrapeAll (some content) env fuel = Except.ok [] ∧
        (scrapeState content env fuel).fetchLog = [] ∧
        (scrapeState content env fuel).pageCount = 0) ∧
    toCsv [] = "Title,URL,LastUpdated" := by
  refine ⟨fun env fuel => rfl, ?_, by decide⟩
  intro content env fuel hseeds
  have hqnil : (initState content).queue = [] := hseeds
  have hrun : scrapeState content env fuel = initState content :=
    crawlRun_queue_nil env (seedUrlsOf content) fuel (initState content) hqnil
  refine ⟨?_, by rw [hrun]; rfl, by rw [hrun]; rfl⟩
  show Except.ok ((scrapeState content env fuel).seedResults ++
      (scrapeState content env fuel).discoveredResults) = Except.ok []
  rw [hrun]
  rfl

/-- Witness for C10 on a seed file with only blank and invalid lines. -/
theorem C10_empty_seed_file_witness :
    seedUrlsOf "\nnot a url\n x \n" = [] ∧
    (scrapeAll (some "\nnot a url\n x \n") envFail 5 = Except.ok [] ∧
     (scrapeState "\nnot a url\n x \n" envFail 5).fetchLog = [] ∧
     (scrapeState "\nnot a url\n x \n" envFail 5).pageCount = 0) :=
  ⟨by decide, C10_empty_seed_file.2.1 "\nnot a url\n x \n" envFail 5 (by decide)⟩
